import Mathlib

/-!
Verification of core behaviours of the orly nostr relay.

Events, the binary event codec (`src/pkg/encoders/event/binary.go`), the
event validity check (`src/pkg/encoders/event/canonical.go`), the ingest
pipeline (`src/pkg/protocol/socketapi/handleEvent.go`), the REQ handler
(`src/pkg/protocol/socketapi/handleReq.go`), the live-subscription
publisher (`S.Deliver`) and the store write path are shallowly embedded
as Lean functions.  Byte strings are represented as `List Nat` (one `Nat`
per byte).
-/

/-- Shallow embedding of `event.E` (the nostr event record).  `id`,
`pubkey`, `content` and `sig` are byte strings; `created_at` is the
int64 `CreatedAt.V`; `kind` is the uint16 `Kind.K`; `tags` is an ordered
list of tags, each tag an ordered list of byte strings. -/
structure Event where
  id : List Nat
  pubkey : List Nat
  created_at : Int
  kind : Nat
  tags : List (List (List Nat))
  content : List Nat
  sig : List Nat
deriving DecidableEq, Repr

/-- Modelled from the spec: §4.3.1 describes the event record fields as
"varint-prefixed"; the `varint` package itself is not under src/.  This
is the standard little-endian base-128 unsigned varint used by Go's
binary encoders: low 7 bits first, high bit set on all but the last
byte. -/
def varintEncode (n : Nat) : List Nat :=
  if n < 128 then [n]
  else (n % 128 + 128) :: varintEncode (n / 128)
termination_by n
decreasing_by
  exact Nat.div_lt_self (by omega) (by omega)

/-- Modelled from the spec: decoder for `varintEncode`.  Returns the
decoded value and the remaining bytes, or `none` on truncated input. -/
def varintDecode : List Nat → Option (Nat × List Nat)
  | [] => none
  | b :: rest =>
    if b < 128 then some (b, rest)
    else
      match varintDecode rest with
      | none => none
      | some (v, r) => some (b - 128 + 128 * v, r)

/-- Reading exactly `n` bytes from an in-memory byte stream, as
`r.Read` behaves on a `bytes.Buffer` that holds the full record. -/
def readN (n : Nat) (l : List Nat) : Option (List Nat × List Nat) :=
  if n ≤ l.length then some (l.take n, l.drop n) else none

/-- The uint64 reinterpretation `uint64(v)` of an int64 value, used by
`MarshalBinary` for `CreatedAt.V`. -/
def u64ofInt (i : Int) : Nat := (i % (2 ^ 64 : Int)).toNat

/-- The int64 reinterpretation `int64(ca)` of a decoded uint64, used by
`UnmarshalBinary` for `CreatedAt`. -/
def int64ofU64 (n : Nat) : Int :=
  if n < 2 ^ 63 then (n : Int) else (n : Int) - 2 ^ 64

/-- `kind.New(k)` applied to a decoded uint64: the kind field is the
uint16 `K`, so the value is truncated. -/
def kindNew (k : Nat) : Nat := k % 65536

/-- One tag as written by `MarshalBinary`: varint element count, then
each element varint-length-prefixed. -/
def marshalTag (t : List (List Nat)) : List Nat :=
  varintEncode t.length ++ (t.map fun el => varintEncode el.length ++ el).flatten

/-- `MarshalBinary` (src/pkg/encoders/event/binary.go:29): 32-byte id,
32-byte pubkey, varint created_at (as uint64), varint kind, varint tag
count, the tags, varint content length, content, 64-byte sig. -/
def marshalBinary (ev : Event) : List Nat :=
  ev.id ++ ev.pubkey ++ varintEncode (u64ofInt ev.created_at)
    ++ varintEncode ev.kind ++ varintEncode ev.tags.length
    ++ (ev.tags.map marshalTag).flatten
    ++ varintEncode ev.content.length ++ ev.content ++ ev.sig

/-- The inner element loop of `UnmarshalBinary`: read `n` varint-prefixed
tag elements. -/
def readElems : Nat → List Nat → Option (List (List Nat) × List Nat)
  | 0, l => some ([], l)
  | n + 1, l =>
    match varintDecode l with
    | none => none
    | some (len, l1) =>
      match readN len l1 with
      | none => none
      | some (el, l2) =>
        match readElems n l2 with
        | none => none
        | some (els, l3) => some (el :: els, l3)

/-- The tag loop of `UnmarshalBinary`: read `n` tags. -/
def readTags : Nat → List Nat → Option (List (List (List Nat)) × List Nat)
  | 0, l => some ([], l)
  | n + 1, l =>
    match varintDecode l with
    | none => none
    | some (nf, l1) =>
      match readElems nf l1 with
      | none => none
      | some (t, l2) =>
        match readTags n l2 with
        | none => none
        | some (ts, l3) => some (t :: ts, l3)

/-- `UnmarshalBinary` (src/pkg/encoders/event/binary.go:48): reads the
fields back in the order `MarshalBinary` wrote them, returning the event
and the remaining bytes, or `none` on truncation. -/
def unmarshalBinary (l : List Nat) : Option (Event × List Nat) :=
  match readN 32 l with
  | none => none
  | some (id, l) =>
    match readN 32 l with
    | none => none
    | some (pk, l) =>
      match varintDecode l with
      | none => none
      | some (ca, l) =>
        match varintDecode l with
        | none => none
        | some (k, l) =>
          match varintDecode l with
          | none => none
          | some (nTags, l) =>
            match readTags nTags l with
            | none => none
            | some (tgs, l) =>
              match varintDecode l with
              | none => none
              | some (cLen, l) =>
                match readN cLen l with
                | none => none
                | some (content, l) =>
                  match readN 64 l with
                  | none => none
                  | some (sig, l) =>
                    some
                      ( { id := id, pubkey := pk,
                          created_at := int64ofU64 ca, kind := kindNew k,
                          tags := tgs, content := content, sig := sig },
                        l )

theorem varintDecode_varintEncode (n : Nat) (r : List Nat) :
    varintDecode (varintEncode n ++ r) = some (n, r) := by
  induction n using Nat.strong_induction_on with
  | _ n ih =>
    unfold varintEncode
    by_cases h : n < 128
    · simp [h, varintDecode]
    · have hdiv : n / 128 < n := Nat.div_lt_self (by omega) (by omega)
      rw [if_neg h]
      simp only [List.cons_append, varintDecode, List.append_eq]
      rw [if_neg (show ¬ (n % 128 + 128 < 128) by omega)]
      simp only [ih _ hdiv, Option.some.injEq, Prod.mk.injEq, and_true]
      omega

theorem readN_append (l r : List Nat) : readN l.length (l ++ r) = some (l, r) := by
  simp [readN]

theorem readN_append_of_length {n : Nat} (l r : List Nat) (h : l.length = n) :
    readN n (l ++ r) = some (l, r) := by
  subst h; exact readN_append l r

theorem readElems_round (t : List (List Nat)) (r : List Nat) :
    readElems t.length ((t.map fun el => varintEncode el.length ++ el).flatten ++ r)
      = some (t, r) := by
  induction t with
  | nil => simp [readElems]
  | cons el els ih =>
    simp only [List.map_cons, List.flatten_cons, List.length_cons,
      List.append_assoc]
    simp only [readElems, varintDecode_varintEncode, readN_append, ih]

theorem readTags_round (ts : List (List (List Nat))) (r : List Nat) :
    readTags ts.length ((ts.map marshalTag).flatten ++ r) = some (ts, r) := by
  induction ts with
  | nil => simp [readTags]
  | cons t tsl ih =>
    simp only [List.map_cons, List.flatten_cons, List.length_cons,
      List.append_assoc, marshalTag]
    simp only [readTags, varintDecode_varintEncode, readElems_round, ih]

theorem int64ofU64_u64ofInt (i : Int) (h0 : 0 ≤ i) (h1 : i < 2 ^ 63) :
    int64ofU64 (u64ofInt i) = i := by
  unfold u64ofInt int64ofU64
  have h2 : i % (2 ^ 64 : Int) = i := Int.emod_eq_of_lt h0 (by omega)
  rw [h2]
  rw [if_pos (by omega)]
  omega

/-- C10.  For every event with 32-byte id and pubkey, 64-byte sig, and
non-negative int64 `created_at` (the kind is a uint16), decoding the
binary record produced by the binary encoder reconstructs an identical
event, consuming the whole record. -/
theorem c10_binary_round_trip (ev : Event)
    (hid : ev.id.length = 32) (hpk : ev.pubkey.length = 32)
    (hsig : ev.sig.length = 64)
    (hca0 : 0 ≤ ev.created_at) (hca1 : ev.created_at < 2 ^ 63)
    (hk : ev.kind < 65536) :
    unmarshalBinary (marshalBinary ev) = some (ev, []) := by
  have hkk : kindNew ev.kind = ev.kind := Nat.mod_eq_of_lt hk
  have hsigr : readN 64 ev.sig = some (ev.sig, []) := by
    simp [readN, hsig, List.take_of_length_le, List.drop_eq_nil_of_le,
      Nat.le_of_eq hsig]
  unfold marshalBinary unmarshalBinary
  simp only [List.append_assoc]
  simp only [readN_append_of_length _ _ hid, readN_append_of_length _ _ hpk,
    varintDecode_varintEncode, readTags_round, readN_append, hsigr,
    int64ofU64_u64ofInt _ hca0 hca1, hkk]

/-- Witness for C10 at a concrete event. -/
theorem c10_binary_round_trip_witness :
    unmarshalBinary (marshalBinary
        { id := List.replicate 32 0, pubkey := List.replicate 32 1,
          created_at := 1733739427, kind := 1,
          tags := [[[101], [48, 49]], [[100]]], content := [104, 105],
          sig := List.replicate 64 2 })
      = some
        ( { id := List.replicate 32 0, pubkey := List.replicate 32 1,
            created_at := 1733739427, kind := 1,
            tags := [[[101], [48, 49]], [[100]]], content := [104, 105],
            sig := List.replicate 64 2 },
          [] ) :=
  c10_binary_round_trip _ (by decide) (by decide) (by decide) (by decide)
    (by decide) (by decide)

/-! ## Kind classes and the store write path -/

/-- Replaceable kinds: 0, 3 and the 10000-19999 range (spec §3; the
`kind` package is not under src/). -/
def isReplaceableKind (k : Nat) : Bool :=
  k == 0 || k == 3 || (10000 ≤ k && k ≤ 19999)

/-- Parameterized-replaceable kinds: the 30000-39999 range
(`kind.IsParameterizedReplaceable`). -/
def isParamReplaceableKind (k : Nat) : Bool := 30000 ≤ k && k ≤ 39999

/-- Ephemeral kinds: the 20000-29999 range. -/
def isEphemeralKind (k : Nat) : Bool := 20000 ≤ k && k ≤ 29999

/-- `t.Key()`: the first element of a tag. -/
def tagKey (t : List (List Nat)) : List Nat := t.headD []

/-- `t.Value()`: the second element of a tag. -/
def tagValue (t : List (List Nat)) : List Nat := (t.drop 1).headD []

/-- The value of the first `d` tag of an event; an absent `d` tag is
treated as the empty value (spec §4.3.2 step 5). -/
def firstDTagValue (tags : List (List (List Nat))) : List Nat :=
  match tags.find? (fun t => tagKey t == [100]) with
  | none => []
  | some t => tagValue t

/-- The replaceable-bookkeeping key of an event: `(pubkey, kind)` for
replaceable kinds, `(pubkey, kind, d-tag value)` for
parameterized-replaceable kinds. -/
inductive ReplKey where
  | repl (pubkey : List Nat) (kind : Nat)
  | param (pubkey : List Nat) (kind : Nat) (dval : List Nat)
deriving DecidableEq, Repr

/-- The replaceable key of an event, when its kind is in one of the two
replaceable classes. -/
def keyOf (ev : Event) : Option ReplKey :=
  if isReplaceableKind ev.kind then some (.repl ev.pubkey ev.kind)
  else if isParamReplaceableKind ev.kind then
    some (.param ev.pubkey ev.kind (firstDTagValue ev.tags))
  else none

/-- Bytewise lexicographic "greater" on byte strings, the id tie-break
of spec §3. -/
def lexGt : List Nat → List Nat → Bool
  | [], [] => false
  | _ :: _, [] => true
  | [], _ :: _ => false
  | a :: as, b :: bs => if b < a then true else if a < b then false else lexGt as bs

/-- Whether a new same-key event wins against the currently stored one:
strictly greater `created_at`, or equal `created_at` and lexicographically
greater id (spec §3). -/
def beats (newE old : Event) : Bool :=
  old.created_at < newE.created_at ||
    (newE.created_at == old.created_at && lexGt newE.id old.id)

inductive SaveResult where
  | accepted
  | duplicate
  | older
  | ephemeral
deriving DecidableEq, Repr

/-- Modelled from the spec: the store write path `save(event)` of
§4.3.2 (`SaveEvent` itself is not under src/; only its tests and
callers are).  The store is the list of stored events in insertion
order.  Step 1: duplicate ids are no-ops.  Step 6: ephemeral kinds are
not persisted.  Steps 4-5: a replaceable or parameterized-replaceable
event replaces the currently stored event of its key when it wins by
`created_at` (tie-break: lexicographically greater id) and is rejected
as `older` otherwise.  Step 8: otherwise the event record is
persisted. -/
def save (st : List Event) (ev : Event) : List Event × SaveResult :=
  if st.any (fun x => x.id == ev.id) then (st, .duplicate)
  else if isEphemeralKind ev.kind then (st, .ephemeral)
  else
    match keyOf ev with
    | none => (st ++ [ev], .accepted)
    | some k =>
      match st.find? (fun x => keyOf x == some k) with
      | none => (st ++ [ev], .accepted)
      | some w =>
        if beats ev w then
          (st.filter (fun x => keyOf x != some k) ++ [ev], .accepted)
        else (st, .older)

/-- A sequence of save operations starting from the empty store. -/
def saveAll (evs : List Event) : List Event :=
  evs.foldl (fun st e => (save st e).1) []

/-- At most one stored event per replaceable key. -/
def UniqKeys (st : List Event) : Prop :=
  ∀ e1 ∈ st, ∀ e2 ∈ st, ∀ k : ReplKey,
    keyOf e1 = some k → keyOf e2 = some k → e1 = e2

theorem isReplaceableKind_iff (k : Nat) :
    isReplaceableKind k = true ↔ k = 0 ∨ k = 3 ∨ (10000 ≤ k ∧ k ≤ 19999) := by
  simp [isReplaceableKind]
  tauto

theorem isParamReplaceableKind_iff (k : Nat) :
    isParamReplaceableKind k = true ↔ 30000 ≤ k ∧ k ≤ 39999 := by
  simp [isParamReplaceableKind]

theorem isEphemeralKind_iff (k : Nat) :
    isEphemeralKind k = true ↔ 20000 ≤ k ∧ k ≤ 29999 := by
  simp [isEphemeralKind]

theorem keyOf_not_ephemeral {ev : Event} {k : ReplKey} (h : keyOf ev = some k) :
    isEphemeralKind ev.kind = false := by
  unfold keyOf at h
  by_cases h1 : isReplaceableKind ev.kind
  · have h1p := (isReplaceableKind_iff ev.kind).1 h1
    have : ¬ isEphemeralKind ev.kind = true := by
      rw [isEphemeralKind_iff]; omega
    simpa using this
  · rw [if_neg h1] at h
    by_cases h2 : isParamReplaceableKind ev.kind
    · have h2p := (isParamReplaceableKind_iff ev.kind).1 h2
      have : ¬ isEphemeralKind ev.kind = true := by
        rw [isEphemeralKind_iff]; omega
      simpa using this
    · rw [if_neg h2] at h
      exact Option.noConfusion h

theorem save_dup {st : List Event} {ev : Event}
    (h : st.any (fun x => x.id == ev.id) = true) :
    save st ev = (st, .duplicate) := by
  simp [save, h]

theorem save_eph {st : List Event} {ev : Event}
    (h1 : st.any (fun x => x.id == ev.id) = false)
    (h2 : isEphemeralKind ev.kind = true) :
    save st ev = (st, .ephemeral) := by
  simp [save, h1, h2]

theorem save_regular {st : List Event} {ev : Event}
    (h1 : st.any (fun x => x.id == ev.id) = false)
    (h2 : isEphemeralKind ev.kind = false)
    (h3 : keyOf ev = none) :
    save st ev = (st ++ [ev], .accepted) := by
  simp [save, h1, h2, h3]

theorem save_newkey {st : List Event} {ev : Event} {k0 : ReplKey}
    (h1 : st.any (fun x => x.id == ev.id) = false)
    (h2 : isEphemeralKind ev.kind = false)
    (h3 : keyOf ev = some k0)
    (h4 : st.find? (fun x => keyOf x == some k0) = none) :
    save st ev = (st ++ [ev], .accepted) := by
  simp [save, h1, h2, h3, h4]

theorem save_replace {st : List Event} {ev w : Event} {k0 : ReplKey}
    (h1 : st.any (fun x => x.id == ev.id) = false)
    (h2 : isEphemeralKind ev.kind = false)
    (h3 : keyOf ev = some k0)
    (h4 : st.find? (fun x => keyOf x == some k0) = some w)
    (h5 : beats ev w = true) :
    save st ev = (st.filter (fun x => keyOf x != some k0) ++ [ev], .accepted) := by
  simp [save, h1, h2, h3, h4, h5]

theorem save_older {st : List Event} {ev w : Event} {k0 : ReplKey}
    (h1 : st.any (fun x => x.id == ev.id) = false)
    (h2 : isEphemeralKind ev.kind = false)
    (h3 : keyOf ev = some k0)
    (h4 : st.find? (fun x => keyOf x == some k0) = some w)
    (h5 : beats ev w = false) :
    save st ev = (st, .older) := by
  simp [save, h1, h2, h3, h4, h5]

theorem mem_singleton_append {e ev : Event} {st : List Event}
    (h : e ∈ st ++ [ev]) : e ∈ st ∨ e = ev := by
  rcases List.mem_append.1 h with h | h
  · exact Or.inl h
  · exact Or.inr (by simpa using h)

theorem beats_le {a b : Event} (h : beats a b = true) :
    b.created_at ≤ a.created_at := by
  unfold beats at h
  simp only [Bool.or_eq_true, decide_eq_true_eq, Bool.and_eq_true, beq_iff_eq] at h
  rcases h with h | ⟨h, _⟩
  · omega
  · omega

theorem not_beats_le {a b : Event} (h : beats a b = false) :
    a.created_at ≤ b.created_at := by
  unfold beats at h
  simp only [Bool.or_eq_false_iff, decide_eq_false_iff_not] at h
  omega

theorem save_preserves_uniq (st : List Event) (ev : Event) (hU : UniqKeys st) :
    UniqKeys (save st ev).1 := by
  by_cases hdup : st.any (fun x => x.id == ev.id) = true
  · rw [save_dup hdup]; exact hU
  · have hdup0 : st.any (fun x => x.id == ev.id) = false := by simpa using hdup
    by_cases heph : isEphemeralKind ev.kind = true
    · rw [save_eph hdup0 heph]; exact hU
    · have heph0 : isEphemeralKind ev.kind = false := by simpa using heph
      cases hkey : keyOf ev with
      | none =>
        rw [save_regular hdup0 heph0 hkey]
        intro e1 h1 e2 h2 k hk1 hk2
        rcases mem_singleton_append h1 with h1m | h1m
        · rcases mem_singleton_append h2 with h2m | h2m
          · exact hU e1 h1m e2 h2m k hk1 hk2
          · rw [h2m, hkey] at hk2; exact Option.noConfusion hk2
        · rw [h1m, hkey] at hk1; exact Option.noConfusion hk1
      | some k0 =>
        cases hfind : st.find? (fun x => keyOf x == some k0) with
        | none =>
          rw [save_newkey hdup0 heph0 hkey hfind]
          have hnone : ∀ x ∈ st, keyOf x ≠ some k0 := by
            intro x hx
            have := List.find?_eq_none.1 hfind x hx
            simpa using this
          intro e1 h1 e2 h2 k hk1 hk2
          rcases mem_singleton_append h1 with h1m | h1m
          · rcases mem_singleton_append h2 with h2m | h2m
            · exact hU e1 h1m e2 h2m k hk1 hk2
            · rw [h2m, hkey] at hk2
              have hkk := Option.some.inj hk2
              subst hkk
              exact absurd hk1 (hnone e1 h1m)
          · rw [h1m, hkey] at hk1
            have hkk := Option.some.inj hk1
            subst hkk
            rcases mem_singleton_append h2 with h2m | h2m
            · exact absurd hk2 (hnone e2 h2m)
            · rw [h1m, h2m]
        | some w =>
          by_cases hb : beats ev w = true
          · rw [save_replace hdup0 heph0 hkey hfind hb]
            have hfil : ∀ e ∈ st.filter (fun x => keyOf x != some k0),
                e ∈ st ∧ keyOf e ≠ some k0 := by
              intro e he
              have hm := List.mem_filter.1 he
              refine ⟨hm.1, ?_⟩
              have := hm.2
              simpa using this
            intro e1 h1 e2 h2 k hk1 hk2
            rcases mem_singleton_append h1 with h1m | h1m
            · rcases mem_singleton_append h2 with h2m | h2m
              · exact hU e1 (hfil e1 h1m).1 e2 (hfil e2 h2m).1 k hk1 hk2
              · rw [h2m, hkey] at hk2
                have hkk := Option.some.inj hk2
                subst hkk
                exact absurd hk1 (hfil e1 h1m).2
            · rcases mem_singleton_append h2 with h2m | h2m
              · rw [h1m, hkey] at hk1
                have hkk := Option.some.inj hk1
                subst hkk
                exact absurd hk2 (hfil e2 h2m).2
              · rw [h1m, h2m]
          · have hb0 : beats ev w = false := by simpa using hb
            rw [save_older hdup0 heph0 hkey hfind hb0]
            exact hU

theorem save_mem_or_new (st : List Event) (ev : Event) :
    ∀ x ∈ (save st ev).1, x ∈ st ∨ x = ev := by
  intro x hx
  by_cases hdup : st.any (fun y => y.id == ev.id) = true
  · rw [save_dup hdup] at hx; exact Or.inl hx
  · have hdup0 : st.any (fun y => y.id == ev.id) = false := by simpa using hdup
    by_cases heph : isEphemeralKind ev.kind = true
    · rw [save_eph hdup0 heph] at hx; exact Or.inl hx
    · have heph0 : isEphemeralKind ev.kind = false := by simpa using heph
      cases hkey : keyOf ev with
      | none =>
        rw [save_regular hdup0 heph0 hkey] at hx
        exact mem_singleton_append hx
      | some k0 =>
        cases hfind : st.find? (fun y => keyOf y == some k0) with
        | none =>
          rw [save_newkey hdup0 heph0 hkey hfind] at hx
          exact mem_singleton_append hx
        | some w =>
          by_cases hb : beats ev w = true
          · rw [save_replace hdup0 heph0 hkey hfind hb] at hx
            rcases mem_singleton_append hx with hxm | hxm
            · exact Or.inl (List.mem_filter.1 hxm).1
            · exact Or.inr hxm
          · have hb0 : beats ev w = false := by simpa using hb
            rw [save_older hdup0 heph0 hkey hfind hb0] at hx
            exact Or.inl hx

theorem save_winner_grows (st : List Event) (ev : Event) (k : ReplKey) (w : Event)
    (hw : w ∈ st) (hkw : keyOf w = some k) (hU : UniqKeys st) :
    ∃ w2 ∈ (save st ev).1, keyOf w2 = some k ∧ w.created_at ≤ w2.created_at := by
  by_cases hdup : st.any (fun y => y.id == ev.id) = true
  · rw [save_dup hdup]; exact ⟨w, hw, hkw, le_refl _⟩
  · have hdup0 : st.any (fun y => y.id == ev.id) = false := by simpa using hdup
    by_cases heph : isEphemeralKind ev.kind = true
    · rw [save_eph hdup0 heph]; exact ⟨w, hw, hkw, le_refl _⟩
    · have heph0 : isEphemeralKind ev.kind = false := by simpa using heph
      cases hkey : keyOf ev with
      | none =>
        rw [save_regular hdup0 heph0 hkey]
        exact ⟨w, List.mem_append_left _ hw, hkw, le_refl _⟩
      | some k0 =>
        cases hfind : st.find? (fun y => keyOf y == some k0) with
        | none =>
          rw [save_newkey hdup0 heph0 hkey hfind]
          exact ⟨w, List.mem_append_left _ hw, hkw, le_refl _⟩
        | some w0 =>
          by_cases hb : beats ev w0 = true
          · rw [save_replace hdup0 heph0 hkey hfind hb]
            by_cases hkk : k = k0
            · subst hkk
              have hw0mem : w0 ∈ st := List.mem_of_find?_eq_some hfind
              have hkw0 : keyOf w0 = some k := by
                have := List.find?_some hfind
                simpa using this
              have hww0 : w = w0 := hU w hw w0 hw0mem k hkw hkw0
              refine ⟨ev, List.mem_append_right _ (by simp), hkey, ?_⟩
              rw [hww0]
              exact beats_le hb
            · refine ⟨w, List.mem_append_left _ ?_, hkw, le_refl _⟩
              refine List.mem_filter.2 ⟨hw, ?_⟩
              simp only [bne_iff_ne, ne_eq, hkw, Option.some.injEq]
              exact fun hc => hkk hc
          · have hb0 : beats ev w0 = false := by simpa using hb
            rw [save_older hdup0 heph0 hkey hfind hb0]
            exact ⟨w, hw, hkw, le_refl _⟩

theorem save_new_dominated (st : List Event) (ev : Event) (k : ReplKey)
    (hkey : keyOf ev = some k)
    (hdup0 : st.any (fun y => y.id == ev.id) = false) :
    ∃ w ∈ (save st ev).1, keyOf w = some k ∧ ev.created_at ≤ w.created_at := by
  have heph0 : isEphemeralKind ev.kind = false := keyOf_not_ephemeral hkey
  cases hfind : st.find? (fun y => keyOf y == some k) with
  | none =>
    rw [save_newkey hdup0 heph0 hkey hfind]
    exact ⟨ev, List.mem_append_right _ (by simp), hkey, le_refl _⟩
  | some w =>
    by_cases hb : beats ev w = true
    · rw [save_replace hdup0 heph0 hkey hfind hb]
      exact ⟨ev, List.mem_append_right _ (by simp), hkey, le_refl _⟩
    · have hb0 : beats ev w = false := by simpa using hb
      rw [save_older hdup0 heph0 hkey hfind hb0]
      have hw : w ∈ st := List.mem_of_find?_eq_some hfind
      have hkw : keyOf w = some k := by
        have := List.find?_some hfind
        simpa using this
      exact ⟨w, hw, hkw, not_beats_le hb0⟩

/-- The store after running the write path on each event in turn. -/
def saveFold (st : List Event) (evs : List Event) : List Event :=
  evs.foldl (fun s e => (save s e).1) st

theorem saveFold_cons (st : List Event) (e : Event) (evs : List Event) :
    saveFold st (e :: evs) = saveFold (save st e).1 evs := rfl

theorem saveAll_eq_saveFold (evs : List Event) : saveAll evs = saveFold [] evs := rfl

theorem saveFold_uniq (evs : List Event) (st : List Event) (hU : UniqKeys st) :
    UniqKeys (saveFold st evs) := by
  induction evs generalizing st with
  | nil => exact hU
  | cons e rest ih => exact ih _ (save_preserves_uniq st e hU)

theorem saveFold_winner_grows (evs : List Event) (st : List Event) (k : ReplKey)
    (w : Event) (hw : w ∈ st) (hkw : keyOf w = some k) (hU : UniqKeys st) :
    ∃ w2 ∈ saveFold st evs, keyOf w2 = some k ∧ w.created_at ≤ w2.created_at := by
  induction evs generalizing st w with
  | nil => exact ⟨w, hw, hkw, le_refl _⟩
  | cons e rest ih =>
    obtain ⟨w1, hw1, hkw1, hle1⟩ := save_winner_grows st e k w hw hkw hU
    obtain ⟨w2, hw2, hkw2, hle2⟩ :=
      ih (save st e).1 w1 hw1 hkw1 (save_preserves_uniq st e hU)
    exact ⟨w2, hw2, hkw2, le_trans hle1 hle2⟩

theorem saveFold_dominates (evs : List Event) (st : List Event)
    (hU : UniqKeys st)
    (hfresh : ∀ f ∈ evs, ∀ x ∈ st, f.id ≠ x.id)
    (hnd : (evs.map Event.id).Nodup) :
    ∀ s ∈ saveFold st evs, ∀ k, keyOf s = some k →
      ∀ e ∈ evs, keyOf e = some k → e.created_at ≤ s.created_at := by
  induction evs generalizing st with
  | nil =>
    intro s hs k hks e he
    exact absurd he (List.not_mem_nil e)
  | cons e0 rest ih =>
    intro s hs k hks e he hke
    have hU1 := save_preserves_uniq st e0 hU
    have hnd0 : e0.id ∉ rest.map Event.id ∧ (rest.map Event.id).Nodup :=
      List.nodup_cons.1 (by simpa using hnd : (e0.id :: rest.map Event.id).Nodup)
    have hfresh1 : ∀ f ∈ rest, ∀ x ∈ (save st e0).1, f.id ≠ x.id := by
      intro f hf x hx
      rcases save_mem_or_new st e0 x hx with hx1 | hx1
      · exact hfresh f (List.mem_cons_of_mem _ hf) x hx1
      · subst hx1
        intro hcon
        exact hnd0.1 (hcon ▸ List.mem_map_of_mem Event.id hf)
    rcases List.mem_cons.1 he with he0 | herest
    · subst he0
      have hdup0 : st.any (fun x => x.id == e.id) = false := by
        rw [List.any_eq_false]
        intro x hx
        simpa using (hfresh e (List.mem_cons_self e rest) x hx).symm
      obtain ⟨w1, hw1, hkw1, hle1⟩ := save_new_dominated st e k hke hdup0
      obtain ⟨w2, hw2, hkw2, hle2⟩ :=
        saveFold_winner_grows rest (save st e).1 k w1 hw1 hkw1 hU1
      have hUf := saveFold_uniq rest (save st e).1 hU1
      have hsw : s = w2 := hUf s (by rw [saveFold_cons] at hs; exact hs) w2 hw2 k hks hkw2
      rw [hsw]
      exact le_trans hle1 hle2
    · exact ih (save st e0).1 hU1 hfresh1 hnd0.2 s
        (by rw [saveFold_cons] at hs; exact hs) k hks e herest hke

/-- C2.  After every sequence of save operations starting from the empty
store, at most one event is stored per replaceable key `(pubkey, kind)`
(kinds 0, 3, 10000-19999) and per parameterized-replaceable key
`(pubkey, kind, d-tag value)` (kinds 30000-39999); the surviving event
of a key has `created_at` at least that of every saved event of the same
key.  The hypothesis that the saved events carry pairwise-distinct ids
reflects ids being content hashes. -/
theorem c2_replaceable_invariant (evs : List Event)
    (hnd : (evs.map Event.id).Nodup) :
    UniqKeys (saveAll evs) ∧
      ∀ s ∈ saveAll evs, ∀ k, keyOf s = some k →
        ∀ e ∈ evs, keyOf e = some k → e.created_at ≤ s.created_at := by
  have hU0 : UniqKeys ([] : List Event) := by
    intro e1 h1
    exact absurd h1 (List.not_mem_nil e1)
  constructor
  · rw [saveAll_eq_saveFold]
    exact saveFold_uniq evs [] hU0
  · rw [saveAll_eq_saveFold]
    exact saveFold_dominates evs [] hU0
      (by
        intro f hf x hx
        exact absurd hx (List.not_mem_nil x)) hnd

/-- Witness for C2: two same-key kind-0 events; the newer one survives. -/
theorem c2_replaceable_invariant_witness :
    UniqKeys (saveAll
        [ { id := [1], pubkey := [9], created_at := 100, kind := 0,
            tags := [], content := [], sig := [] },
          { id := [2], pubkey := [9], created_at := 200, kind := 0,
            tags := [], content := [], sig := [] } ]) ∧
      ∀ s ∈ saveAll
          [ { id := [1], pubkey := [9], created_at := 100, kind := 0,
              tags := [], content := [], sig := [] },
            { id := [2], pubkey := [9], created_at := 200, kind := 0,
              tags := [], content := [], sig := [] } ],
        ∀ k, keyOf s = some k →
          ∀ e ∈ [ ({ id := [1], pubkey := [9], created_at := 100, kind := 0,
                      tags := [], content := [], sig := [] } : Event),
                  { id := [2], pubkey := [9], created_at := 200, kind := 0,
                    tags := [], content := [], sig := [] } ],
            keyOf e = some k → e.created_at ≤ s.created_at :=
  c2_replaceable_invariant _ (by decide)

/-! ## Canonical form, validity check and the ingest pipeline -/

/-- Lowercase hex digit of a nibble. -/
def hexDigit (n : Nat) : Nat := if n < 10 then 48 + n else 87 + n

/-- `hex.EncAppend`: lowercase hex encoding of a byte string (the hex
package is not under src/; standard lowercase hex). -/
def hexEnc (bs : List Nat) : List Nat :=
  (bs.map fun b => [hexDigit (b / 16), hexDigit (b % 16)]).flatten

/-- ASCII decimal digits of a natural number. -/
def natDecimal (n : Nat) : List Nat :=
  if n < 10 then [48 + n] else natDecimal (n / 10) ++ [48 + n % 10]
termination_by n
decreasing_by
  exact Nat.div_lt_self (by omega) (by omega)

/-- ASCII decimal rendering of an int64 (`timestamp.Marshal`). -/
def intDecimal (i : Int) : List Nat :=
  if i < 0 then 45 :: natDecimal i.natAbs else natDecimal i.toNat

/-- Modelled from the spec: the NIP-01 string escape of §4.1
(`text.NostrEscape` is not under src/): escape quote, backslash,
newline, carriage return, tab, backspace, form feed, and the remaining
C0 controls as a `\u00XX` sequence; every other byte passes through. -/
def escapeByte (b : Nat) : List Nat :=
  if b = 34 then [92, 34]
  else if b = 92 then [92, 92]
  else if b = 10 then [92, 110]
  else if b = 13 then [92, 114]
  else if b = 9 then [92, 116]
  else if b = 8 then [92, 98]
  else if b = 12 then [92, 102]
  else if b < 32 then [92, 117, 48, 48, hexDigit (b / 16), hexDigit (b % 16)]
  else [b]

/-- `text.NostrEscape` over a byte string. -/
def nostrEscape (s : List Nat) : List Nat := (s.map escapeByte).flatten

/-- `text.AppendQuote`: a double-quoted escaped byte string. -/
def quoteBytes (s : List Nat) : List Nat := 34 :: (nostrEscape s ++ [34])

/-- One tag in canonical JSON: an array of quoted strings. -/
def marshalTagJSON (t : List (List Nat)) : List Nat :=
  91 :: (List.intercalate [44] (t.map quoteBytes) ++ [93])

/-- `tags.Marshal` in canonical JSON: an array of tag arrays. -/
def marshalTagsJSON (tags : List (List (List Nat))) : List Nat :=
  91 :: (List.intercalate [44] (tags.map marshalTagJSON) ++ [93])

/-- `ToCanonical` (src/pkg/encoders/event/canonical.go:19): the byte
string `[0,"<pubkey hex>",<created_at>,<kind>,<tags>,"<content>"]`. -/
def toCanonical (ev : Event) : List Nat :=
  [91, 48, 44, 34] ++ hexEnc ev.pubkey ++ [34, 44]
    ++ intDecimal ev.created_at ++ [44]
    ++ natDecimal ev.kind ++ [44]
    ++ marshalTagsJSON ev.tags ++ [44]
    ++ quoteBytes ev.content ++ [93]

/-- The cryptographic capabilities the core depends on (spec §1, §4.2:
the Schnorr/secp256k1 primitive library is an external collaborator):
SHA-256, BIP-340 public-key and signature parsing, and signature
verification over a 32-byte message. -/
structure Crypto where
  sha256 : List Nat → List Nat
  pubParses : List Nat → Bool
  sigParses : List Nat → Bool
  schnorrOk : List Nat → List Nat → List Nat → Bool

/-- `GetIDBytes` (src/pkg/encoders/event/canonical.go:36): the SHA-256
of the canonical form. -/
def getIdBytes (c : Crypto) (ev : Event) : List Nat := c.sha256 (toCanonical ev)

/-- `btcec.Signer.Verify` (src/pkg/crypto/p256k/btcec/btcec.go:78) with
the public key already parsed: `none` models a non-nil error (the
signature bytes failed to parse); otherwise the verification result. -/
def btcecVerify (c : Crypto) (pub msg sig : List Nat) : Option Bool :=
  if c.sigParses sig then some (c.schnorrOk pub msg sig) else none

/-- `Verify` (src/pkg/encoders/event/canonical.go:167).  Returns
`(valid, err)` where the second component models a non-nil error.  When
the underlying verification errors and the declared id differs from the
recomputed id, the source retries on the recomputed id (mutating
`ev.ID`); with the same signature bytes the retry errors the same way. -/
def verifyE (c : Crypto) (ev : Event) : Bool × Bool :=
  if c.pubParses ev.pubkey = false then (false, true)
  else
    match btcecVerify c ev.pubkey ev.id ev.sig with
    | some valid => (valid, false)
    | none =>
      if getIdBytes c ev = ev.id then (false, true)
      else
        match btcecVerify c ev.pubkey (getIdBytes c ev) ev.sig with
        | some valid => (valid, true)
        | none => (false, true)

/-- The reason category of an OK envelope (spec §7). -/
inductive OkReason where
  | none
  | invalid (msg : String)
  | error (msg : String)
  | blocked (msg : String)
deriving DecidableEq, Repr

/-- An OK envelope written back to the submitting client. -/
structure Resp where
  id : List Nat
  accepted : Bool
  reason : OkReason
deriving DecidableEq, Repr

/-- Outcome of one step of the deletion tag loop: `ret` models an early
`return` from `HandleEvent`, `cont` a `continue` to the next tag. -/
inductive TagStep where
  | ret (rs : List Resp) (st : List Event)
  | cont (rs : List Resp) (st : List Event)
deriving DecidableEq, Repr

/-- A hex digit value. -/
def unhexDigit (c : Nat) : Option Nat :=
  if 48 ≤ c ∧ c ≤ 57 then some (c - 48)
  else if 97 ≤ c ∧ c ≤ 102 then some (c - 87)
  else if 65 ≤ c ∧ c ≤ 70 then some (c - 55)
  else none

/-- `hex.DecAppend`: decode a hex byte string; fails on odd length or a
non-hex character. -/
def hexDecode : List Nat → Option (List Nat)
  | [] => some []
  | [_] => none
  | a :: b :: rest =>
    match unhexDigit a, unhexDigit b, hexDecode rest with
    | some x, some y, some tl => some ((16 * x + y) :: tl)
    | _, _, _ => none

/-- `hex.DecBytes` into the 32-byte id buffer of handleEvent.go:97: the
tag value must decode to exactly 32 bytes. -/
def hexDecode32 (v : List Nat) : Option (List Nat) :=
  match hexDecode v with
  | none => Option.none
  | some bs => if bs.length = 32 then some bs else none

/-- `bytes.Split(value, ":")`. -/
def splitOnColon : List Nat → List (List Nat)
  | [] => [[]]
  | c :: rest =>
    let r := splitOnColon rest
    if c = 58 then [] :: r
    else (c :: r.headD []) :: r.tail

/-- Modelled from the spec: decimal parse of the a-tag kind
(`ints.Unmarshal`, not under src/); fails on empty or non-digit
input. -/
def parseDecimalAux : List Nat → Nat → Option Nat
  | [], acc => some acc
  | c :: rest, acc =>
    if 48 ≤ c ∧ c ≤ 57 then parseDecimalAux rest (acc * 10 + (c - 48))
    else none

def parseDecimal (s : List Nat) : Option Nat :=
  match s with
  | [] => none
  | _ => parseDecimalAux s 0

/-- Whether an event carries a tag with the given single-letter key and
the given value (the re-check backing a `#x` tag filter). -/
def hasTagValue (letterByte : Nat) (val : List Nat) (ev : Event) : Bool :=
  ev.tags.any fun t =>
    2 ≤ t.length && tagKey t == [letterByte] && tagValue t == val

/-- The per-target inner loop of the deletion handler
(handleEvent.go:247): a kind-5 target gets an error OK written (the
loop then falls through); a target newer than the deletion is skipped;
a target by a different author returns with an error OK; otherwise the
target is deleted from the store (`sto.DeleteEvent`). -/
def delResp (ev tg : Event) (rs : List Resp) : List Resp :=
  if tg.kind = 5 then
    rs ++ [⟨ev.id, false, .error "cannot delete delete event"⟩]
  else rs

def targetLoop (ev : Event) : List Event → List Resp → List Event → TagStep
  | [], rs, st => .cont rs st
  | tg :: rest, rs, st =>
    if ev.created_at < tg.created_at then targetLoop ev rest (delResp ev tg rs) st
    else if tg.pubkey ≠ ev.pubkey then
      .ret (delResp ev tg rs ++
        [⟨ev.id, false, .error "only author can delete event"⟩]) st
    else if tg.id.length = 32 then
      targetLoop ev rest (delResp ev tg rs) (st.filter fun x => x.id != tg.id)
    else
      .ret (delResp ev tg rs ++
        [⟨ev.id, false, .error "failed to create event ID"⟩]) st

/-- One iteration of the deletion tag loop (handleEvent.go:91): the
`e`-tag branch looks up the referenced event by id, requires the same
author, and deletes it (with no created_at comparison); the `a`-tag
branch validates the `kind:pubkey:dtag` coordinate, requires a
parameterized-replaceable non-deletion kind and the same author, then
deletes the matching stored events that are not newer than the
deletion. -/
def atagQuery (ev : Event) (p2 pk : List Nat) (kk : Nat) (rs : List Resp)
    (st : List Event) : TagStep :=
  if (st.filter fun v =>
      v.kind == kk && v.pubkey == pk && hasTagValue 100 p2 v).isEmpty then
    .cont rs st
  else
    targetLoop ev
      ((st.filter fun v =>
          v.kind == kk && v.pubkey == pk && hasTagValue 100 p2 v).filter
        fun v => decide (u64ofInt v.created_at ≤ u64ofInt ev.created_at))
      rs st

/-- The `a`-tag branch of the deletion tag loop (handleEvent.go:159),
applied to the colon-split tag value: validate the `kind:pubkey:dtag`
coordinate, require a parameterized-replaceable non-deletion kind and
the deletion's own author, then delete the matching stored events that
are not newer than the deletion. -/
def atagBranch (ev : Event) (parts : List (List Nat)) (rs : List Resp)
    (st : List Event) : TagStep :=
  if parts.length ≠ 3 then .cont rs st
  else if parts.getD 2 [] = ev.id then
    .ret (rs ++
      [⟨ev.id, false, .blocked "deletion event cannot reference its own ID"⟩]) st
  else
    match hexDecode (parts.getD 1 []) with
    | none =>
      .ret (rs ++
        [⟨ev.id, false, .invalid "delete event a tag pubkey value invalid"⟩]) st
    | some pk =>
      match parseDecimal (parts.getD 0 []) with
      | none =>
        .ret (rs ++
          [⟨ev.id, false, .invalid "delete event a tag kind value invalid"⟩]) st
      | some kin =>
        if kindNew kin = 5 then
          .ret (rs ++
            [⟨ev.id, false, .blocked "delete event kind may not be deleted"⟩]) st
        else if isParamReplaceableKind (kindNew kin) = false then
          .ret (rs ++
            [⟨ev.id, false, .error
              "delete tags with a tags containing non-parameterized-replaceable events cannot be processed"⟩]) st
        else if pk ≠ ev.pubkey then
          .ret (rs ++
            [⟨ev.id, false, .blocked
              "cannot delete other users events (delete by a tag)"⟩]) st
        else atagQuery ev (parts.getD 2 []) pk (kindNew kin) rs st

/-- One iteration of the deletion tag loop (handleEvent.go:91): the
`e`-tag branch looks up the referenced event by id, requires the same
author, and deletes it (with no created_at comparison); the `a`-tag
branch is `atagBranch` on the colon-split value. -/
def processTag (ev : Event) (t : List (List Nat)) (rs : List Resp)
    (st : List Event) : TagStep :=
  if t.length < 2 then .cont rs st
  else if tagKey t = [101] then
    match hexDecode32 (tagValue t) with
    | none => .ret rs st
    | some eid =>
      match st.filter (fun x => x.id == eid) with
      | [] => .cont rs st
      | ref :: _ =>
        if ref.pubkey ≠ ev.pubkey then
          .ret (rs ++
            [⟨ev.id, false, .blocked "cannot delete events from other authors"⟩]) st
        else .cont rs (st.filter fun x => x.id != eid)
  else if tagKey t = [97] then atagBranch ev (splitOnColon (tagValue t)) rs st
  else .cont rs st

/-- The deletion tag loop: process tags in order, stopping on an early
return. -/
def processTags (ev : Event) : List (List (List Nat)) → List Resp → List Event → TagStep
  | [], rs, st => .cont rs st
  | t :: ts, rs, st =>
    match processTag ev t rs st with
    | .ret rs1 st1 => .ret rs1 st1
    | .cont rs1 st1 => processTags ev ts rs1 st1

/-- Result of handling one EVENT submission: the OK envelopes written,
the resulting store, and whether `srv.AddEvent` was reached. -/
structure HEOut where
  resps : List Resp
  store : List Event
  added : Bool
deriving DecidableEq, Repr

/-- Modelled from the spec: `srv.AddEvent` (not under src/) persists the
event via the store write path of §4.3.2 and reports acceptance (§4.5
step 7); the resulting OK envelope is written by handleEvent.go:332. -/
def addEvent (ev : Event) (rs : List Resp) (st : List Event) : HEOut :=
  match save st ev with
  | (st1, .accepted) => ⟨rs ++ [⟨ev.id, true, .none⟩], st1, true⟩
  | (st1, .ephemeral) => ⟨rs ++ [⟨ev.id, true, .none⟩], st1, true⟩
  | (st1, .duplicate) => ⟨rs ++ [⟨ev.id, false, .error "duplicate"⟩], st1, true⟩
  | (st1, .older) => ⟨rs ++ [⟨ev.id, false, .error "older"⟩], st1, true⟩

/-- The continuation of `HandleEvent` after signature processing: the
kind-5 deletion handling (handleEvent.go:89), the OK envelope of
handleEvent.go:300, the previously-deleted re-check of
handleEvent.go:306 — transcribed as in the source, where it sits inside
the `kind == Deletion` branch yet is guarded by `kind != Deletion` —
and finally `srv.AddEvent`. -/
def afterVerify (st : List Event) (ev : Event) (rs0 : List Resp)
    (okFlag : Bool) : HEOut :=
  if ev.kind = 5 then
    match processTags ev ev.tags rs0 st with
    | .ret rs st1 => ⟨rs, st1, false⟩
    | .cont rs st1 =>
      let rs1 := rs ++ [⟨ev.id, okFlag, .none⟩]
      if ev.kind ≠ 5 then
        if (st1.filter fun d => d.kind == 5 && hasTagValue 101 ev.id d).isEmpty then
          addEvent ev rs1 st1
        else
          ⟨rs1 ++
            [⟨ev.id, false, .blocked "event was deleted, not storing it again"⟩],
            st1, false⟩
      else addEvent ev rs1 st1
  else addEvent ev rs0 st

/-- `HandleEvent` (src/pkg/protocol/socketapi/handleEvent.go:46), from
the point where the event has been decoded from its envelope: the
id-recomputation gate, the signature gate (on a verification error the
source writes an error OK and falls through), the deletion handling,
and `srv.AddEvent`.  `QueryEvents`/`DeleteEvent` are modelled over the
list of stored events. -/
def handleEventModel (c : Crypto) (st : List Event) (ev : Event) : HEOut :=
  if getIdBytes c ev ≠ ev.id then
    ⟨[⟨ev.id, false, .invalid "event id is computed incorrectly"⟩], st, false⟩
  else if (verifyE c ev).2 then
    afterVerify st ev [⟨ev.id, false, .error "failed to verify signature"⟩] false
  else if (verifyE c ev).1 = false then
    ⟨[⟨ev.id, false, .error "signature is invalid"⟩], st, false⟩
  else afterVerify st ev [] true

/-- C5.  An EVENT submission whose recomputed canonical-form SHA-256
differs from its declared id is answered with exactly one OK envelope
with accepted = false and the invalid id-mismatch reason; the store is
unchanged and `srv.AddEvent` is never reached. -/
theorem c5_id_mismatch_rejected (c : Crypto) (st : List Event) (ev : Event)
    (h : getIdBytes c ev ≠ ev.id) :
    handleEventModel c st ev =
      ⟨[⟨ev.id, false, .invalid "event id is computed incorrectly"⟩], st, false⟩ := by
  simp [handleEventModel, h]

/-- Witness for C5 at a concrete submission. -/
theorem c5_id_mismatch_rejected_witness :
    handleEventModel
        { sha256 := fun _ => [0], pubParses := fun _ => true,
          sigParses := fun _ => true, schnorrOk := fun _ _ _ => true }
        []
        { id := [1], pubkey := [2], created_at := 0, kind := 1, tags := [],
          content := [], sig := [3] }
      = ⟨[⟨[1], false, .invalid "event id is computed incorrectly"⟩], [], false⟩ :=
  c5_id_mismatch_rejected _ _ _ (by decide)

/-- C9 (amended).  `Verify` reports an event valid exactly when the
public key parses, the signature bytes parse, and the Schnorr
verification of the signature over the DECLARED id with the event's
pubkey succeeds; the accepting path performs no comparison of the
declared id against the recomputed id (that comparison is a separate
gate in `HandleEvent`, before `Verify` is consulted). -/
theorem c9_verify_characterization (c : Crypto) (ev : Event) :
    (verifyE c ev).1 = true ↔
      c.pubParses ev.pubkey = true ∧ c.sigParses ev.sig = true ∧
        c.schnorrOk ev.pubkey ev.id ev.sig = true := by
  unfold verifyE btcecVerify
  by_cases hp : c.pubParses ev.pubkey = false
  · simp only [hp, if_true]
    constructor
    · intro hcon; exact absurd hcon (by simp)
    · intro hcon; exact hcon.1
  · have hp1 : c.pubParses ev.pubkey = true := by
      cases hv : c.pubParses ev.pubkey
      · exact absurd hv hp
      · rfl
    by_cases hs : c.sigParses ev.sig = true
    · simp [hp1, hs]
    · have hs0 : c.sigParses ev.sig = false := by
        cases hv : c.sigParses ev.sig
        · rfl
        · exact absurd hv hs
      by_cases hid : getIdBytes c ev = ev.id
      · simp [hp1, hs0, hid]
      · simp [hp1, hs0, hid]

/-- Witness for the C9 characterization at a concrete event. -/
theorem c9_verify_characterization_witness :
    (verifyE
        { sha256 := fun _ => [0], pubParses := fun _ => true,
          sigParses := fun _ => true, schnorrOk := fun _ _ _ => true }
        { id := [1], pubkey := [2], created_at := 0, kind := 1, tags := [],
          content := [], sig := [3] }).1 = true ↔
      (fun _ : List Nat => true) [2] = true ∧
        (fun _ : List Nat => true) [3] = true ∧
        (fun _ _ _ : List Nat => true) [2] [1] [3] = true :=
  c9_verify_characterization _ _

/-- C9 counterexample.  `Verify` reports this event valid (its signature
verifies over the declared id — the signer capability of spec §4.2
signs arbitrary 32-byte messages, so such a signature exists for any
declared id) even though the declared id differs from the recomputed
canonical-form hash.  The claim that the validity check accepts only
when the recomputed id equals the declared id is therefore false of
`Verify` itself. -/
theorem c9_counterexample :
    (verifyE
        { sha256 := fun _ => [0], pubParses := fun _ => true,
          sigParses := fun _ => true, schnorrOk := fun _ _ _ => true }
        { id := [1], pubkey := [2], created_at := 0, kind := 1, tags := [],
          content := [], sig := [3] }).1 = true
      ∧ getIdBytes
          { sha256 := fun _ => [0], pubParses := fun _ => true,
            sigParses := fun _ => true, schnorrOk := fun _ _ _ => true }
          { id := [1], pubkey := [2], created_at := 0, kind := 1, tags := [],
            content := [], sig := [3] }
        ≠ [1] := by
  constructor
  · rfl
  · decide

/-- C1 (code bug).  The previously-deleted re-check transcribed from
handleEvent.go:306 is unreachable: it is guarded by `kind != Deletion`
but nested inside the `kind == Deletion` branch.  Concretely: the store
holds a kind-5 deletion by author `[7]` whose e-tag names id
`replicate 32 0`; resubmitting a valid non-deletion event with that id
by the same author is accepted and persisted again with OK true — it is
not answered with the blocked previously-deleted rejection the spec
requires. -/
theorem c1_deleted_id_replay_not_blocked :
    handleEventModel
        { sha256 := fun _ => List.replicate 32 0,
          pubParses := fun _ => true, sigParses := fun _ => true,
          schnorrOk := fun _ _ _ => true }
        [ { id := List.replicate 32 1, pubkey := [7], created_at := 50,
            kind := 5, tags := [[[101], List.replicate 64 48]],
            content := [], sig := [3] } ]
        { id := List.replicate 32 0, pubkey := [7], created_at := 100,
          kind := 1, tags := [], content := [104, 105], sig := [3] }
      = ⟨[⟨List.replicate 32 0, true, .none⟩],
          [ { id := List.replicate 32 1, pubkey := [7], created_at := 50,
              kind := 5, tags := [[[101], List.replicate 64 48]],
              content := [], sig := [3] },
            { id := List.replicate 32 0, pubkey := [7], created_at := 100,
              kind := 1, tags := [], content := [104, 105], sig := [3] } ],
          true⟩ := by
  decide

/-! ## Deletion authority and deletion created_at bounds -/

/-- The store component of a tag-loop outcome. -/
def TagStep.store : TagStep → List Event
  | .ret _ st => st
  | .cont _ st => st

theorem eq_of_mem_of_id_eq {st0 : List Event} (hnd : (st0.map Event.id).Nodup)
    {a b : Event} (ha : a ∈ st0) (hb : b ∈ st0) (h : a.id = b.id) : a = b :=
  List.inj_on_of_nodup_map hnd ha hb h

theorem targetLoop_store_subset (ev : Event) (lst : List Event) (rs : List Resp)
    (st : List Event) : ∀ x ∈ (targetLoop ev lst rs st).store, x ∈ st := by
  induction lst generalizing rs st with
  | nil => intro x hx; exact hx
  | cons tg rest ih =>
    intro x hx
    unfold targetLoop at hx
    by_cases h1 : ev.created_at < tg.created_at
    · rw [if_pos h1] at hx
      exact ih _ _ x hx
    · rw [if_neg h1] at hx
      by_cases h2 : tg.pubkey ≠ ev.pubkey
      · rw [if_pos h2] at hx
        exact hx
      · rw [if_neg h2] at hx
        by_cases h3 : tg.id.length = 32
        · rw [if_pos h3] at hx
          exact (List.mem_filter.1 (ih _ _ x hx)).1
        · rw [if_neg h3] at hx
          exact hx

theorem targetLoop_preserves (ev : Event) {st0 : List Event}
    (hnd : (st0.map Event.id).Nodup) {t : Event}
    (hkeep : ∀ tg : Event, tg ∈ st0 → t = tg →
      ev.created_at < tg.created_at ∨ tg.pubkey ≠ ev.pubkey) :
    ∀ (lst : List Event) (rs : List Resp) (st : List Event),
      (∀ x ∈ lst, x ∈ st0) → (∀ x ∈ st, x ∈ st0) → t ∈ st →
      t ∈ (targetLoop ev lst rs st).store := by
  intro lst
  induction lst with
  | nil => intro rs st _ _ ht; exact ht
  | cons tg rest ih =>
    intro rs st hlst hsub ht
    unfold targetLoop
    by_cases h1 : ev.created_at < tg.created_at
    · rw [if_pos h1]
      exact ih _ _ (fun x hx => hlst x (List.mem_cons_of_mem _ hx)) hsub ht
    · rw [if_neg h1]
      by_cases h2 : tg.pubkey ≠ ev.pubkey
      · rw [if_pos h2]
        exact ht
      · rw [if_neg h2]
        by_cases h3 : tg.id.length = 32
        · rw [if_pos h3]
          have htid : t.id ≠ tg.id := by
            intro hcon
            have heq : t = tg :=
              eq_of_mem_of_id_eq hnd (hsub t ht)
                (hlst tg (List.mem_cons_self tg rest)) hcon
            rcases hkeep tg (hlst tg (List.mem_cons_self tg rest)) heq with hc | hc
            · exact h1 hc
            · exact h2 hc
          refine ih _ _ (fun x hx => hlst x (List.mem_cons_of_mem _ hx))
            (fun x hx => hsub x (List.mem_filter.1 hx).1) ?_
          refine List.mem_filter.2 ⟨ht, ?_⟩
          simpa using htid
        · rw [if_neg h3]
          exact ht

theorem atagQuery_store_subset (ev : Event) (p2 pk : List Nat) (kk : Nat)
    (rs : List Resp) (st : List Event) :
    ∀ x ∈ (atagQuery ev p2 pk kk rs st).store, x ∈ st := by
  intro x hx
  unfold atagQuery at hx
  split at hx
  · exact hx
  · exact targetLoop_store_subset ev _ _ _ x hx

theorem atagBranch_store_subset (ev : Event) (parts : List (List Nat))
    (rs : List Resp) (st : List Event) :
    ∀ x ∈ (atagBranch ev parts rs st).store, x ∈ st := by
  intro x hx
  unfold atagBranch at hx
  split at hx
  · exact hx
  · split at hx
    · exact hx
    · split at hx
      · exact hx
      · split at hx
        · exact hx
        · split at hx
          · exact hx
          · split at hx
            · exact hx
            · split at hx
              · exact hx
              · exact atagQuery_store_subset ev _ _ _ _ _ x hx

theorem processTag_store_subset (ev : Event) (t0 : List (List Nat))
    (rs : List Resp) (st : List Event) :
    ∀ x ∈ (processTag ev t0 rs st).store, x ∈ st := by
  intro x hx
  unfold processTag at hx
  split at hx
  · exact hx
  · split at hx
    · split at hx
      · exact hx
      · split at hx
        · exact hx
        · split at hx
          · exact hx
          · exact (List.mem_filter.1 hx).1
    · split at hx
      · exact atagBranch_store_subset ev _ _ _ x hx
      · exact hx

theorem atagQuery_preserves (ev : Event) {st0 : List Event}
    (hnd : (st0.map Event.id).Nodup) {t : Event}
    (hkeep : ∀ tg : Event, tg ∈ st0 → t = tg →
      ev.created_at < tg.created_at ∨ tg.pubkey ≠ ev.pubkey)
    (p2 pk : List Nat) (kk : Nat) (rs : List Resp) (st : List Event)
    (hsub : ∀ x ∈ st, x ∈ st0) (ht : t ∈ st) :
    t ∈ (atagQuery ev p2 pk kk rs st).store := by
  unfold atagQuery
  split
  · exact ht
  · refine targetLoop_preserves ev hnd hkeep _ _ _ ?_ hsub ht
    intro x hx
    exact hsub x (List.mem_filter.1 (List.mem_filter.1 hx).1).1

theorem atagBranch_preserves (ev : Event) {st0 : List Event}
    (hnd : (st0.map Event.id).Nodup) {t : Event}
    (hkeep : ∀ tg : Event, tg ∈ st0 → t = tg →
      ev.created_at < tg.created_at ∨ tg.pubkey ≠ ev.pubkey)
    (parts : List (List Nat)) (rs : List Resp) (st : List Event)
    (hsub : ∀ x ∈ st, x ∈ st0) (ht : t ∈ st) :
    t ∈ (atagBranch ev parts rs st).store := by
  unfold atagBranch
  split
  · exact ht
  · split
    · exact ht
    · split
      · exact ht
      · split
        · exact ht
        · split
          · exact ht
          · split
            · exact ht
            · split
              · exact ht
              · exact atagQuery_preserves ev hnd hkeep _ _ _ _ _ hsub ht

theorem processTag_preserves_pubkey (ev : Event) {st0 : List Event}
    (hnd : (st0.map Event.id).Nodup) {t : Event} (hp : t.pubkey ≠ ev.pubkey)
    (t0 : List (List Nat)) (rs : List Resp) (st : List Event)
    (hsub : ∀ x ∈ st, x ∈ st0) (ht : t ∈ st) :
    t ∈ (processTag ev t0 rs st).store := by
  have hkeep : ∀ tg : Event, tg ∈ st0 → t = tg →
      ev.created_at < tg.created_at ∨ tg.pubkey ≠ ev.pubkey := by
    intro tg _ heq
    right
    rw [← heq]
    exact hp
  unfold processTag
  split
  · exact ht
  · split
    · split
      · exact ht
      · rename_i eid heid
        split
        · exact ht
        · rename_i ref tail href
          split
          · exact ht
          · rename_i hrefpk
            refine List.mem_filter.2 ⟨ht, ?_⟩
            have hrefmem0 : ref ∈ st.filter (fun x => x.id == eid) := by
              rw [href]
              exact List.mem_cons_self _ _
            have hrefmem : ref ∈ st := (List.mem_filter.1 hrefmem0).1
            have hrefid : ref.id = eid := by
              have := (List.mem_filter.1 hrefmem0).2
              simpa using this
            simp only [bne_iff_ne, ne_eq]
            intro hcon
            have hteq : t = ref :=
              eq_of_mem_of_id_eq hnd (hsub t ht) (hsub ref hrefmem)
                (by rw [hcon, hrefid])
            have hrefp : ref.pubkey = ev.pubkey := not_not.1 hrefpk
            rw [hteq] at hp
            exact hp hrefp
    · split
      · exact atagBranch_preserves ev hnd hkeep _ _ _ hsub ht
      · exact ht

theorem processTag_preserves_notag (ev : Event) {st0 : List Event}
    (hnd : (st0.map Event.id).Nodup) {t : Event}
    (hca : ev.created_at < t.created_at)
    (t0 : List (List Nat)) (rs : List Resp) (st : List Event)
    (htag : ¬ (2 ≤ t0.length ∧ tagKey t0 = [101] ∧
      hexDecode32 (tagValue t0) = some t.id))
    (hsub : ∀ x ∈ st, x ∈ st0) (ht : t ∈ st) :
    t ∈ (processTag ev t0 rs st).store := by
  have hkeep : ∀ tg : Event, tg ∈ st0 → t = tg →
      ev.created_at < tg.created_at ∨ tg.pubkey ≠ ev.pubkey := by
    intro tg _ heq
    left
    rw [← heq]
    exact hca
  unfold processTag
  split
  · exact ht
  · rename_i hlen2
    split
    · rename_i hkeyE
      split
      · exact ht
      · rename_i eid heid
        split
        · exact ht
        · rename_i ref tail href
          split
          · exact ht
          · refine List.mem_filter.2 ⟨ht, ?_⟩
            simp only [bne_iff_ne, ne_eq]
            intro hcon
            exact htag ⟨by omega, hkeyE, by rw [heid, hcon]⟩
    · split
      · exact atagBranch_preserves ev hnd hkeep _ _ _ hsub ht
      · exact ht

theorem processTags_preserves_pubkey (ev : Event) {st0 : List Event}
    (hnd : (st0.map Event.id).Nodup) {t : Event} (hp : t.pubkey ≠ ev.pubkey) :
    ∀ (ts : List (List (List Nat))) (rs : List Resp) (st : List Event),
      (∀ x ∈ st, x ∈ st0) → t ∈ st →
      t ∈ (processTags ev ts rs st).store := by
  intro ts
  induction ts with
  | nil => intro rs st _ ht; exact ht
  | cons t0 ts ih =>
    intro rs st hsub ht
    unfold processTags
    cases hres : processTag ev t0 rs st with
    | ret rs1 st1 =>
      have h1 := processTag_preserves_pubkey ev hnd hp t0 rs st hsub ht
      rw [hres] at h1
      exact h1
    | cont rs1 st1 =>
      have h1 := processTag_preserves_pubkey ev hnd hp t0 rs st hsub ht
      rw [hres] at h1
      have hsub1 : ∀ x ∈ st1, x ∈ st0 := by
        intro x hx
        have hx2 : x ∈ (processTag ev t0 rs st).store := by
          rw [hres]; exact hx
        exact hsub x (processTag_store_subset ev t0 rs st x hx2)
      exact ih rs1 st1 hsub1 h1

theorem processTags_preserves_notag (ev : Event) {st0 : List Event}
    (hnd : (st0.map Event.id).Nodup) {t : Event}
    (hca : ev.created_at < t.created_at) :
    ∀ (ts : List (List (List Nat))) (rs : List Resp) (st : List Event),
      (∀ tg ∈ ts, ¬ (2 ≤ tg.length ∧ tagKey tg = [101] ∧
        hexDecode32 (tagValue tg) = some t.id)) →
      (∀ x ∈ st, x ∈ st0) → t ∈ st →
      t ∈ (processTags ev ts rs st).store := by
  intro ts
  induction ts with
  | nil => intro rs st _ _ ht; exact ht
  | cons t0 ts ih =>
    intro rs st htags hsub ht
    unfold processTags
    have htag0 := htags t0 (List.mem_cons_self t0 ts)
    cases hres : processTag ev t0 rs st with
    | ret rs1 st1 =>
      have h1 := processTag_preserves_notag ev hnd hca t0 rs st htag0 hsub ht
      rw [hres] at h1
      exact h1
    | cont rs1 st1 =>
      have h1 := processTag_preserves_notag ev hnd hca t0 rs st htag0 hsub ht
      rw [hres] at h1
      have hsub1 : ∀ x ∈ st1, x ∈ st0 := by
        intro x hx
        have hx2 : x ∈ (processTag ev t0 rs st).store := by
          rw [hres]; exact hx
        exact hsub x (processTag_store_subset ev t0 rs st x hx2)
      exact ih rs1 st1 (fun tg hg => htags tg (List.mem_cons_of_mem _ hg)) hsub1 h1

/-- The pubkey stored inside a replaceable key. -/
def replKeyPub : ReplKey → List Nat
  | .repl p _ => p
  | .param p _ _ => p

theorem keyOf_pubkey {x : Event} {k : ReplKey} (h : keyOf x = some k) :
    replKeyPub k = x.pubkey := by
  unfold keyOf at h
  split at h
  · have hk := (Option.some.inj h).symm
    subst hk
    rfl
  · split at h
    · have hk := (Option.some.inj h).symm
      subst hk
      rfl
    · exact Option.noConfusion h

theorem save_preserves_pubkey (st : List Event) (ev : Event) {t : Event}
    (ht : t ∈ st) (hp : t.pubkey ≠ ev.pubkey) : t ∈ (save st ev).1 := by
  by_cases hdup : st.any (fun y => y.id == ev.id) = true
  · rw [save_dup hdup]; exact ht
  · have hdup0 : st.any (fun y => y.id == ev.id) = false := by simpa using hdup
    by_cases heph : isEphemeralKind ev.kind = true
    · rw [save_eph hdup0 heph]; exact ht
    · have heph0 : isEphemeralKind ev.kind = false := by simpa using heph
      cases hkey : keyOf ev with
      | none =>
        rw [save_regular hdup0 heph0 hkey]
        exact List.mem_append_left _ ht
      | some k0 =>
        cases hfind : st.find? (fun y => keyOf y == some k0) with
        | none =>
          rw [save_newkey hdup0 heph0 hkey hfind]
          exact List.mem_append_left _ ht
        | some w =>
          by_cases hb : beats ev w = true
          · rw [save_replace hdup0 heph0 hkey hfind hb]
            refine List.mem_append_left _ (List.mem_filter.2 ⟨ht, ?_⟩)
            simp only [bne_iff_ne, ne_eq]
            intro hcon
            have h1 : replKeyPub k0 = t.pubkey := keyOf_pubkey hcon
            have h2 : replKeyPub k0 = ev.pubkey := keyOf_pubkey hkey
            exact hp (by rw [← h1, h2])
          · have hb0 : beats ev w = false := by simpa using hb
            rw [save_older hdup0 heph0 hkey hfind hb0]
            exact ht

theorem save_preserves_keyOf_none (st : List Event) (ev : Event)
    (hkey : keyOf ev = none) {t : Event} (ht : t ∈ st) : t ∈ (save st ev).1 := by
  by_cases hdup : st.any (fun y => y.id == ev.id) = true
  · rw [save_dup hdup]; exact ht
  · have hdup0 : st.any (fun y => y.id == ev.id) = false := by simpa using hdup
    by_cases heph : isEphemeralKind ev.kind = true
    · rw [save_eph hdup0 heph]; exact ht
    · have heph0 : isEphemeralKind ev.kind = false := by simpa using heph
      rw [save_regular hdup0 heph0 hkey]
      exact List.mem_append_left _ ht

theorem addEvent_store (ev : Event) (rs : List Resp) (st : List Event) :
    (addEvent ev rs st).store = (save st ev).1 := by
  unfold addEvent
  cases h : save st ev with
  | mk st1 r =>
    cases r <;> simp

theorem afterVerify_eq_ret {ev : Event} {rs0 rs1 : List Resp}
    {st st1 : List Event} {okFlag : Bool} (hk : ev.kind = 5)
    (hres : processTags ev ev.tags rs0 st = .ret rs1 st1) :
    afterVerify st ev rs0 okFlag = ⟨rs1, st1, false⟩ := by
  unfold afterVerify
  rw [if_pos hk, hres]

theorem afterVerify_eq_cont {ev : Event} {rs0 rs1 : List Resp}
    {st st1 : List Event} {okFlag : Bool} (hk : ev.kind = 5)
    (hres : processTags ev ev.tags rs0 st = .cont rs1 st1) :
    afterVerify st ev rs0 okFlag =
      addEvent ev (rs1 ++ [⟨ev.id, okFlag, .none⟩]) st1 := by
  unfold afterVerify
  rw [if_pos hk, hres]
  simp [hk]

theorem afterVerify_eq_nondeletion {ev : Event} {rs0 : List Resp}
    {st : List Event} {okFlag : Bool} (hk : ev.kind ≠ 5) :
    afterVerify st ev rs0 okFlag = addEvent ev rs0 st := by
  unfold afterVerify
  rw [if_neg hk]

theorem afterVerify_preserves_pubkey (ev : Event) {st0 : List Event}
    (hnd : (st0.map Event.id).Nodup) {t : Event} (hp : t.pubkey ≠ ev.pubkey)
    (rs0 : List Resp) (okFlag : Bool) (ht : t ∈ st0) :
    t ∈ (afterVerify st0 ev rs0 okFlag).store := by
  by_cases hk : ev.kind = 5
  · cases hres : processTags ev ev.tags rs0 st0 with
    | ret rs1 st1 =>
      have h1 := processTags_preserves_pubkey ev hnd hp ev.tags rs0 st0
        (fun x hx => hx) ht
      rw [hres] at h1
      rw [afterVerify_eq_ret hk hres]
      exact h1
    | cont rs1 st1 =>
      have h1 := processTags_preserves_pubkey ev hnd hp ev.tags rs0 st0
        (fun x hx => hx) ht
      rw [hres] at h1
      rw [afterVerify_eq_cont hk hres, addEvent_store]
      exact save_preserves_pubkey st1 ev h1 hp
  · rw [afterVerify_eq_nondeletion hk, addEvent_store]
    exact save_preserves_pubkey st0 ev ht hp

theorem handleEventModel_preserves_pubkey (c : Crypto) (st0 : List Event)
    (ev : Event) {t : Event} (hnd : (st0.map Event.id).Nodup)
    (ht : t ∈ st0) (hp : t.pubkey ≠ ev.pubkey) :
    t ∈ (handleEventModel c st0 ev).store := by
  unfold handleEventModel
  split
  · exact ht
  · split
    · exact afterVerify_preserves_pubkey ev hnd hp _ _ ht
    · split
      · exact ht
      · exact afterVerify_preserves_pubkey ev hnd hp _ _ ht

theorem filter_id_eq_singleton {t : Event} :
    ∀ {st : List Event}, (st.map Event.id).Nodup → t ∈ st →
      st.filter (fun x => x.id == t.id) = [t] := by
  intro st
  induction st with
  | nil => intro _ ht; exact absurd ht (List.not_mem_nil t)
  | cons a rest ih =>
    intro hnd ht
    have hnd2 : a.id ∉ rest.map Event.id ∧ (rest.map Event.id).Nodup :=
      List.nodup_cons.1 (by simpa using hnd)
    rcases List.mem_cons.1 ht with hat | hat
    · subst hat
      rw [List.filter_cons_of_pos (by simp)]
      have hrest : rest.filter (fun x => x.id == t.id) = [] := by
        rw [List.filter_eq_nil_iff]
        intro x hx
        simp only [beq_iff_eq]
        intro hcon
        exact hnd2.1 (by rw [← hcon] at hnd2 ⊢; exact List.mem_map_of_mem Event.id hx)
      rw [hrest]
    · have hane : (a.id == t.id) = false := by
        simp only [beq_eq_false_iff_ne, ne_eq]
        intro hcon
        exact hnd2.1 (by rw [hcon]; exact List.mem_map_of_mem Event.id hat)
      rw [List.filter_cons_of_neg (by simp [hane])]
      exact ih hnd2.2 hat

theorem processTag_blocked_foreign_etag (ev : Event) {st2 : List Event}
    (hnd : (st2.map Event.id).Nodup) {t : Event} (ht : t ∈ st2)
    (hp : t.pubkey ≠ ev.pubkey) (tg : List (List Nat)) (rs : List Resp)
    (hlen : 2 ≤ tg.length) (hkey : tagKey tg = [101])
    (hdec : hexDecode32 (tagValue tg) = some t.id) :
    processTag ev tg rs st2 =
      .ret (rs ++ [⟨ev.id, false,
        .blocked "cannot delete events from other authors"⟩]) st2 := by
  unfold processTag
  rw [if_neg (show ¬ tg.length < 2 by omega), if_pos hkey]
  simp only [hdec, filter_id_eq_singleton hnd ht]
  rw [if_pos hp]

/-- C3.  A kind-5 deletion authored by `P` removes only events authored
by `P`: any stored event whose author differs from the deletion's author
is still in the store after `HandleEvent` (so every query still returns
it), and whenever the deletion processing reaches an `e`-tag referencing
such an event, it stops with the blocked OK-false response
"cannot delete events from other authors" and removes nothing.  Store
ids are pairwise distinct (each save deduplicates by id). -/
theorem c3_deletion_authority (c : Crypto) (st0 : List Event) (ev t : Event)
    (hk5 : ev.kind = 5) (hnd : (st0.map Event.id).Nodup)
    (ht : t ∈ st0) (hp : t.pubkey ≠ ev.pubkey) :
    t ∈ (handleEventModel c st0 ev).store ∧
      ∀ (tg : List (List Nat)) (rs : List Resp) (st2 : List Event),
        (st2.map Event.id).Nodup → t ∈ st2 →
        2 ≤ tg.length → tagKey tg = [101] →
        hexDecode32 (tagValue tg) = some t.id →
        processTag ev tg rs st2 =
          .ret (rs ++ [⟨ev.id, false,
            .blocked "cannot delete events from other authors"⟩]) st2 := by
  constructor
  · exact handleEventModel_preserves_pubkey c st0 ev hnd ht hp
  · intro tg rs st2 hnd2 ht2 hlen hkey hdec
    exact processTag_blocked_foreign_etag ev hnd2 ht2 hp tg rs hlen hkey hdec

/-- Witness for C3: a deletion by author `[7]` whose e-tag references a
stored event authored by `[8]`. -/
theorem c3_deletion_authority_witness :
    ({ id := List.replicate 32 0, pubkey := [8], created_at := 100,
       kind := 1, tags := [], content := [], sig := [] } : Event) ∈
        (handleEventModel
          { sha256 := fun _ => List.replicate 32 1,
            pubParses := fun _ => true, sigParses := fun _ => true,
            schnorrOk := fun _ _ _ => true }
          [ { id := List.replicate 32 0, pubkey := [8], created_at := 100,
              kind := 1, tags := [], content := [], sig := [] } ]
          { id := List.replicate 32 1, pubkey := [7], created_at := 200,
            kind := 5, tags := [[[101], List.replicate 64 48]],
            content := [], sig := [] }).store ∧
      ∀ (tg : List (List Nat)) (rs : List Resp) (st2 : List Event),
        (st2.map Event.id).Nodup →
        ({ id := List.replicate 32 0, pubkey := [8], created_at := 100,
           kind := 1, tags := [], content := [], sig := [] } : Event) ∈ st2 →
        2 ≤ tg.length → tagKey tg = [101] →
        hexDecode32 (tagValue tg) =
          some ({ id := List.replicate 32 0, pubkey := [8], created_at := 100,
                  kind := 1, tags := [], content := [], sig := [] } : Event).id →
        processTag
            { id := List.replicate 32 1, pubkey := [7], created_at := 200,
              kind := 5, tags := [[[101], List.replicate 64 48]],
              content := [], sig := [] } tg rs st2 =
          .ret (rs ++ [⟨List.replicate 32 1, false,
            .blocked "cannot delete events from other authors"⟩]) st2 :=
  c3_deletion_authority _ _ _ _ (by decide) (by decide) (by decide) (by decide)

theorem keyOf_none_of_kind5 {ev : Event} (h : ev.kind = 5) : keyOf ev = none := by
  simp [keyOf, h, isReplaceableKind, isParamReplaceableKind]

theorem handleEventModel_notag_newer (c : Crypto) (st0 : List Event)
    (ev t : Event) (hk5 : ev.kind = 5) (hnd : (st0.map Event.id).Nodup)
    (ht : t ∈ st0) (hca : ev.created_at < t.created_at)
    (htags : ∀ tg ∈ ev.tags, ¬ (2 ≤ tg.length ∧ tagKey tg = [101] ∧
      hexDecode32 (tagValue tg) = some t.id)) :
    t ∈ (handleEventModel c st0 ev).store := by
  have hAV : ∀ (rs0 : List Resp) (okFlag : Bool),
      t ∈ (afterVerify st0 ev rs0 okFlag).store := by
    intro rs0 okFlag
    cases hres : processTags ev ev.tags rs0 st0 with
    | ret rs1 st1 =>
      rw [afterVerify_eq_ret hk5 hres]
      have h1 := processTags_preserves_notag ev hnd hca ev.tags rs0 st0 htags
        (fun x hx => hx) ht
      rw [hres] at h1
      exact h1
    | cont rs1 st1 =>
      rw [afterVerify_eq_cont hk5 hres, addEvent_store]
      have h1 := processTags_preserves_notag ev hnd hca ev.tags rs0 st0 htags
        (fun x hx => hx) ht
      rw [hres] at h1
      exact save_preserves_keyOf_none st1 ev (keyOf_none_of_kind5 hk5) h1
  unfold handleEventModel
  split
  · exact ht
  · split
    · exact hAV _ _
    · split
      · exact ht
      · exact hAV _ _

/-- C4 (amended).  A stored event removed while a kind-5 deletion is
processed either was referenced by one of the deletion's `e`-tags (that
path deletes with no created_at comparison) or has
`created_at ≤` the deletion's `created_at` (the `a`-tag coordinate path
enforces the bound).  Store ids are pairwise distinct. -/
theorem c4_deletion_created_at_bound (c : Crypto) (st0 : List Event)
    (ev t : Event) (hk5 : ev.kind = 5) (hnd : (st0.map Event.id).Nodup)
    (ht : t ∈ st0) (hgone : t ∉ (handleEventModel c st0 ev).store) :
    (∃ tg ∈ ev.tags, 2 ≤ tg.length ∧ tagKey tg = [101] ∧
      hexDecode32 (tagValue tg) = some t.id) ∨
      t.created_at ≤ ev.created_at := by
  by_cases hca : t.created_at ≤ ev.created_at
  · exact Or.inr hca
  · left
    by_contra htag
    have htags : ∀ tg ∈ ev.tags, ¬ (2 ≤ tg.length ∧ tagKey tg = [101] ∧
        hexDecode32 (tagValue tg) = some t.id) := by
      intro tg hg hcon
      exact htag ⟨tg, hg, hcon⟩
    exact hgone (handleEventModel_notag_newer c st0 ev t hk5 hnd ht (by omega) htags)

/-- Witness for the amended C4 at a concrete deletion. -/
theorem c4_deletion_created_at_bound_witness :
    (∃ tg ∈ ([[[101], List.replicate 64 48]] :
        List (List (List Nat))), 2 ≤ tg.length ∧ tagKey tg = [101] ∧
      hexDecode32 (tagValue tg) =
        some (List.replicate 32 0)) ∨
      (100 : Int) ≤ (50 : Int) :=
  c4_deletion_created_at_bound
    { sha256 := fun _ => List.replicate 32 1, pubParses := fun _ => true,
      sigParses := fun _ => true, schnorrOk := fun _ _ _ => true }
    [ { id := List.replicate 32 0, pubkey := [7], created_at := 100,
        kind := 1, tags := [], content := [], sig := [] } ]
    { id := List.replicate 32 1, pubkey := [7], created_at := 50,
      kind := 5, tags := [[[101], List.replicate 64 48]],
      content := [], sig := [] }
    { id := List.replicate 32 0, pubkey := [7], created_at := 100,
      kind := 1, tags := [], content := [], sig := [] }
    (by decide) (by decide) (by decide) (by decide)

/-- C4 counterexample.  The claim as stated is false on the `e`-tag
path: a kind-5 deletion with `created_at = 50` whose e-tag references a
stored same-author event with `created_at = 100` removes that newer
event (handleEvent.go:95-158 performs no created_at comparison for
e-tag targets). -/
theorem c4_counterexample :
    ({ id := List.replicate 32 0, pubkey := [7], created_at := 100,
       kind := 1, tags := [], content := [], sig := [] } : Event).created_at >
        ({ id := List.replicate 32 1, pubkey := [7], created_at := 50,
           kind := 5, tags := [[[101], List.replicate 64 48]],
           content := [], sig := [] } : Event).created_at
      ∧ ({ id := List.replicate 32 0, pubkey := [7], created_at := 100,
           kind := 1, tags := [], content := [], sig := [] } : Event) ∉
          (handleEventModel
            { sha256 := fun _ => List.replicate 32 1,
              pubParses := fun _ => true, sigParses := fun _ => true,
              schnorrOk := fun _ _ _ => true }
            [ { id := List.replicate 32 0, pubkey := [7], created_at := 100,
                kind := 1, tags := [], content := [], sig := [] } ]
            { id := List.replicate 32 1, pubkey := [7], created_at := 50,
              kind := 5, tags := [[[101], List.replicate 64 48]],
              content := [], sig := [] }).store := by
  decide

/-! ## REQ handling, EOSE ordering and live fan-out -/

/-- A REQ filter (spec §3): id prefixes, author prefixes, kinds,
inclusive time bounds (`til` is the `until` bound), single-letter tag predicates, and an optional
limit (`none` models `pointers.Present(f.Limit)` being false). -/
structure ReqFilter where
  ids : List (List Nat)
  authors : List (List Nat)
  kinds : List Nat
  since : Option Int
  til : Option Int
  tags : List (Nat × List (List Nat))
  limit : Option Nat
deriving DecidableEq, Repr

/-- Modelled from the spec: `filter.Match` (not under src/) — an event
matches iff every non-empty option admits it (§3): some id prefix
matches, some author prefix matches, the kind is listed, `created_at`
lies within the inclusive bounds, and every tag predicate is satisfied
by some tag value. -/
def matchesReqFilter (f : ReqFilter) (ev : Event) : Bool :=
  (f.ids.isEmpty || f.ids.any fun p => p.isPrefixOf ev.id) &&
  (f.authors.isEmpty || f.authors.any fun p => p.isPrefixOf ev.pubkey) &&
  (f.kinds.isEmpty || f.kinds.any fun k => k == ev.kind) &&
  (match f.since with
   | none => true
   | some s => decide (s ≤ ev.created_at)) &&
  (match f.til with
   | none => true
   | some u => decide (ev.created_at ≤ u)) &&
  (f.tags.all fun p => p.2.isEmpty || p.2.any fun v => hasTagValue p.1 v ev)

/-- Stable insertion into a list sorted by descending `created_at`. -/
def insertByNewest (e : Event) : List Event → List Event
  | [] => [e]
  | x :: xs =>
    if x.created_at < e.created_at then e :: x :: xs else x :: insertByNewest e xs

/-- Newest-first ordering of a result set. -/
def sortNewestFirst (l : List Event) : List Event := l.foldr insertByNewest []

/-- Modelled from the spec: `QueryEvents` (§4.3.3; the query planner is
not under src/): the events matching the filter, newest first, stopping
at the limit when one is given. -/
def queryEvents (st : List Event) (f : ReqFilter) : List Event :=
  match f.limit with
  | none => sortNewestFirst (st.filter (matchesReqFilter f))
  | some l => (sortNewestFirst (st.filter (matchesReqFilter f))).take l

/-- A frame written to the client socket. -/
inductive Frame where
  | event (subId : String) (ev : Event)
  | eose (subId : String)
  | closed (subId : String)
deriving DecidableEq, Repr

/-- The historic query loop of `HandleReq` (src/unnamed/part_005:61):
filters whose limit is present and zero are skipped; otherwise the
store is queried and each result written as an EVENT frame.  The
`events` accumulator retains the results of the last executed query,
exactly as the source reuses one `events` variable. -/
def reqLoop (st : List Event) (subId : String) :
    List ReqFilter → List Frame → List Event → List Frame × List Event
  | [], frames, events => (frames, events)
  | f :: fs, frames, events =>
    match f.limit with
    | some 0 => reqLoop st subId fs frames events
    | _ =>
      reqLoop st subId fs
        (frames ++ (queryEvents st f).map (Frame.event subId))
        (queryEvents st f)

/-- The cancel loop of `HandleReq` (src/unnamed/part_005:96, identical
in handleReq.go:171): cancel survives only while every filter has a
non-empty ids set, and a filter with a present limit clears it when the
LAST query's result count is below that limit. -/
def cancelLoop (events : List Event) : List ReqFilter → Bool → Bool
  | [], cancel => cancel
  | f :: fs, cancel =>
    if f.ids.length < 1 then false
    else
      match f.limit with
      | some l =>
        if events.length < l then false
        else if cancel = false then false
        else cancelLoop events fs cancel
      | none =>
        if cancel = false then false
        else cancelLoop events fs cancel

/-- Outcome of a REQ: the frames written in order, and the subscription
registered with the publisher (when not cancelled). -/
structure ReqOut where
  frames : List Frame
  registered : Option (String × List ReqFilter)
deriving DecidableEq, Repr

/-- `HandleReq` (src/unnamed/part_005:45; handleReq.go:118-201 adds an
auth gate before this logic): write every historic match, write EOSE,
then either write CLOSED (when the cancel loop decides no further event
can match) or register the subscription live with the publisher. -/
def handleReqModel (st : List Event) (subId : String) (fs : List ReqFilter) :
    ReqOut :=
  if cancelLoop (reqLoop st subId fs [] []).2 fs true then
    ⟨(reqLoop st subId fs [] []).1 ++ [.eose subId] ++ [.closed subId], none⟩
  else ⟨(reqLoop st subId fs [] []).1 ++ [.eose subId], some (subId, fs)⟩

/-- Modelled from the spec: `filters.T.Match` (not under src/) — a
filter set matches when any member filter does (§3: the filters of one
REQ form a disjunction). -/
def matchesAny (fs : List ReqFilter) (ev : Event) : Bool :=
  fs.any (matchesReqFilter · ev)

/-- The frames a registered subscription receives from subsequent
publishes (`S.Deliver` restricted to that subscription), in publish
order. -/
def liveFrames (reg : Option (String × List ReqFilter)) (pubs : List Event) :
    List Frame :=
  match reg with
  | none => []
  | some (sid, fs) => (pubs.filter (matchesAny fs)).map (Frame.event sid)

/-- The whole per-subscription trace: the REQ handler's writes followed
by the live fan-out of later publishes — the subscription is handed to
the publisher only after EOSE is written. -/
def fullTrace (st : List Event) (subId : String) (fs : List ReqFilter)
    (pubs : List Event) : List Frame :=
  (handleReqModel st subId fs).frames ++
    liveFrames (handleReqModel st subId fs).registered pubs

theorem reqLoop_shape (st : List Event) (subId : String) :
    ∀ (fs : List ReqFilter) (frames : List Frame) (events : List Event),
      ∃ H, (reqLoop st subId fs frames events).1 = frames ++ H ∧
        ∀ fr ∈ H, ∃ ev, fr = Frame.event subId ev := by
  intro fs
  induction fs with
  | nil =>
    intro frames events
    exact ⟨[], by simp [reqLoop], by simp⟩
  | cons f fs ih =>
    intro frames events
    unfold reqLoop
    cases hl : f.limit with
    | none =>
      obtain ⟨H, hH, hev⟩ :=
        ih (frames ++ (queryEvents st f).map (Frame.event subId)) (queryEvents st f)
      refine ⟨(queryEvents st f).map (Frame.event subId) ++ H, ?_, ?_⟩
      · rw [hH, List.append_assoc]
      · intro fr hfr
        rcases List.mem_append.1 hfr with h | h
        · obtain ⟨ev, _, hev2⟩ := List.mem_map.1 h
          exact ⟨ev, hev2.symm⟩
        · exact hev fr h
    | some l =>
      cases l with
      | zero => exact ih frames events
      | succ n =>
        obtain ⟨H, hH, hev⟩ :=
          ih (frames ++ (queryEvents st f).map (Frame.event subId)) (queryEvents st f)
        refine ⟨(queryEvents st f).map (Frame.event subId) ++ H, ?_, ?_⟩
        · show (reqLoop st subId fs
              (frames ++ (queryEvents st f).map (Frame.event subId))
              (queryEvents st f)).1 =
            frames ++ ((queryEvents st f).map (Frame.event subId) ++ H)
          rw [hH, List.append_assoc]
        · intro fr hfr
          rcases List.mem_append.1 hfr with h | h
          · obtain ⟨ev, _, hev2⟩ := List.mem_map.1 h
            exact ⟨ev, hev2.symm⟩
          · exact hev fr h

theorem handleReq_frames_decomp (st : List Event) (subId : String)
    (fs : List ReqFilter) :
    ∃ H C, (handleReqModel st subId fs).frames = H ++ [Frame.eose subId] ++ C
      ∧ (∀ fr ∈ H, ∃ ev, fr = Frame.event subId ev)
      ∧ (C = [] ∨ C = [Frame.closed subId]) := by
  obtain ⟨H, hH, hev⟩ := reqLoop_shape st subId fs [] []
  rw [List.nil_append] at hH
  unfold handleReqModel
  by_cases hc : cancelLoop (reqLoop st subId fs [] []).2 fs true
  · rw [if_pos hc]
    exact ⟨H, [Frame.closed subId], by rw [hH], hev, Or.inr rfl⟩
  · rw [if_neg hc]
    exact ⟨H, [], by rw [hH]; simp, hev, Or.inl rfl⟩

/-- C6.  The trace one subscription sees contains an EOSE frame; every
EVENT frame the REQ handler writes (the historic matches) sits strictly
before it, and every EVENT frame of the live fan-out sits strictly
after it, because the subscription is registered with the publisher
only after EOSE is written. -/
theorem c6_eose_ordering (st : List Event) (subId : String)
    (fs : List ReqFilter) (pubs : List Event) :
    ∃ j, (fullTrace st subId fs pubs)[j]? = some (Frame.eose subId) ∧
      j < (handleReqModel st subId fs).frames.length ∧
      (∀ (i : Nat) (ev : Event), i < (handleReqModel st subId fs).frames.length →
        (fullTrace st subId fs pubs)[i]? = some (Frame.event subId ev) → i < j) ∧
      (∀ (i : Nat) (ev : Event), (handleReqModel st subId fs).frames.length ≤ i →
        (fullTrace st subId fs pubs)[i]? = some (Frame.event subId ev) → j < i) := by
  obtain ⟨H, C, hfr, hev, hC⟩ := handleReq_frames_decomp st subId fs
  rw [List.append_assoc] at hfr
  have hlen : (handleReqModel st subId fs).frames.length
      = H.length + (1 + C.length) := by
    rw [hfr]
    simp
    omega
  refine ⟨H.length, ?_, by omega, ?_, ?_⟩
  · unfold fullTrace
    rw [hfr, List.append_assoc, List.getElem?_append]
    rw [if_neg (by omega)]
    simp
  · intro i ev hi hival
    by_contra hge
    have hge2 : H.length ≤ i := by omega
    unfold fullTrace at hival
    rw [List.getElem?_append, if_pos hi] at hival
    rw [hfr, List.getElem?_append, if_neg (by omega)] at hival
    rcases hC with hC0 | hC0
    · subst hC0
      cases hk : i - H.length with
      | zero => rw [hk] at hival; simp at hival
      | succ m => rw [hk] at hival; simp at hival
    · subst hC0
      cases hk : i - H.length with
      | zero => rw [hk] at hival; simp at hival
      | succ m =>
        cases m with
        | zero => rw [hk] at hival; simp at hival
        | succ m2 => rw [hk] at hival; simp at hival
  · intro i ev hi _
    omega

/-- Witness for C6 at a concrete REQ and publish sequence. -/
theorem c6_eose_ordering_witness :
    ∃ j, (fullTrace
        [ { id := [5], pubkey := [6], created_at := 10, kind := 1,
            tags := [], content := [], sig := [] } ] "s"
        [ { ids := [], authors := [], kinds := [1], since := none,
            til := none, tags := [], limit := none } ]
        [ { id := [9], pubkey := [6], created_at := 20, kind := 1,
            tags := [], content := [], sig := [] } ])[j]?
        = some (Frame.eose "s") ∧
      j < (handleReqModel
        [ { id := [5], pubkey := [6], created_at := 10, kind := 1,
            tags := [], content := [], sig := [] } ] "s"
        [ { ids := [], authors := [], kinds := [1], since := none,
            til := none, tags := [], limit := none } ]).frames.length ∧
      (∀ (i : Nat) (ev : Event), i < (handleReqModel
          [ { id := [5], pubkey := [6], created_at := 10, kind := 1,
              tags := [], content := [], sig := [] } ] "s"
          [ { ids := [], authors := [], kinds := [1], since := none,
              til := none, tags := [], limit := none } ]).frames.length →
        (fullTrace
          [ { id := [5], pubkey := [6], created_at := 10, kind := 1,
              tags := [], content := [], sig := [] } ] "s"
          [ { ids := [], authors := [], kinds := [1], since := none,
              til := none, tags := [], limit := none } ]
          [ { id := [9], pubkey := [6], created_at := 20, kind := 1,
              tags := [], content := [], sig := [] } ])[i]?
          = some (Frame.event "s" ev) → i < j) ∧
      (∀ (i : Nat) (ev : Event), (handleReqModel
          [ { id := [5], pubkey := [6], created_at := 10, kind := 1,
              tags := [], content := [], sig := [] } ] "s"
          [ { ids := [], authors := [], kinds := [1], since := none,
              til := none, tags := [], limit := none } ]).frames.length ≤ i →
        (fullTrace
          [ { id := [5], pubkey := [6], created_at := 10, kind := 1,
              tags := [], content := [], sig := [] } ] "s"
          [ { ids := [], authors := [], kinds := [1], since := none,
              til := none, tags := [], limit := none } ]
          [ { id := [9], pubkey := [6], created_at := 20, kind := 1,
              tags := [], content := [], sig := [] } ])[i]?
          = some (Frame.event "s" ev) → j < i) :=
  c6_eose_ordering _ _ _ _

theorem cancelLoop_true_iff (events : List Event) :
    ∀ fs : List ReqFilter, cancelLoop events fs true = true ↔
      ∀ f ∈ fs, 1 ≤ f.ids.length ∧
        ∀ l, f.limit = some l → l ≤ events.length := by
  intro fs
  induction fs with
  | nil => simp [cancelLoop]
  | cons f fs ih =>
    unfold cancelLoop
    by_cases h1 : f.ids.length < 1
    · rw [if_pos h1]
      constructor
      · intro hc
        exact absurd hc (by simp)
      · intro hall
        have := (hall f (List.mem_cons_self f fs)).1
        omega
    · rw [if_neg h1]
      split
      · rename_i l hl
        by_cases h2 : events.length < l
        · rw [if_pos h2]
          constructor
          · intro hc
            exact absurd hc (by simp)
          · intro hall
            have h3 := (hall f (List.mem_cons_self f fs)).2 l hl
            omega
        · rw [if_neg h2, if_neg (by simp), ih]
          constructor
          · intro hall g hg
            rcases List.mem_cons.1 hg with hg0 | hg1
            · subst hg0
              refine ⟨by omega, ?_⟩
              intro l2 hll
              rw [hl] at hll
              have := Option.some.inj hll
              omega
            · exact hall g hg1
          · intro hall g hg
            exact hall g (List.mem_cons_of_mem f hg)
      · rename_i hl
        rw [if_neg (by simp), ih]
        constructor
        · intro hall g hg
          rcases List.mem_cons.1 hg with hg0 | hg1
          · subst hg0
            refine ⟨by omega, ?_⟩
            intro l hll
            rw [hl] at hll
            exact Option.noConfusion hll
          · exact hall g hg1
        · intro hall g hg
          exact hall g (List.mem_cons_of_mem f hg)

/-- C7 (amended).  The REQ handler closes the subscription (CLOSED
written, nothing registered) exactly when every filter has a non-empty
ids set AND every filter carrying a limit received at least that many
events — measured against the result count of the LAST filter queried,
not against whether all requested ids were found. -/
theorem c7_closed_characterization (st : List Event) (subId : String)
    (fs : List ReqFilter) :
    ((handleReqModel st subId fs).registered = none ↔
      ∀ f ∈ fs, 1 ≤ f.ids.length ∧
        ∀ l, f.limit = some l → l ≤ (reqLoop st subId fs [] []).2.length) ∧
    (Frame.closed subId ∈ (handleReqModel st subId fs).frames ↔
      (handleReqModel st subId fs).registered = none) := by
  unfold handleReqModel
  by_cases hc : cancelLoop (reqLoop st subId fs [] []).2 fs true
  · rw [if_pos hc]
    refine ⟨⟨fun _ => (cancelLoop_true_iff _ fs).1 hc, fun _ => rfl⟩, ?_, ?_⟩
    · intro _
      rfl
    · intro _
      exact List.mem_append_right _ (by simp)
  · rw [if_neg hc]
    refine ⟨⟨fun hco => absurd hco (by simp), ?_⟩, ?_, ?_⟩
    · intro hall
      exact absurd ((cancelLoop_true_iff _ fs).2 hall) hc
    · intro hmem
      exfalso
      obtain ⟨H, hH, hev⟩ := reqLoop_shape st subId fs [] []
      rw [List.nil_append] at hH
      rw [hH] at hmem
      rcases List.mem_append.1 hmem with hm | hm
      · obtain ⟨ev, hev2⟩ := hev _ hm
        exact Frame.noConfusion hev2
      · simp at hm
    · intro hco
      exact absurd hco (by simp)

/-- Witness for the C7 characterization at a concrete REQ. -/
theorem c7_closed_characterization_witness :
    ((handleReqModel [] "s" []).registered = none ↔
      ∀ f ∈ ([] : List ReqFilter), 1 ≤ f.ids.length ∧
        ∀ l, f.limit = some l → l ≤ (reqLoop [] "s" [] [] []).2.length) ∧
    (Frame.closed "s" ∈ (handleReqModel [] "s" []).frames ↔
      (handleReqModel [] "s" []).registered = none) :=
  c7_closed_characterization [] "s" []

/-- C7 counterexample.  One filter with the single id `[5]`, limit 2; the
store holds exactly the requested event.  Every requested id was yielded
and the limit was NOT hit (1 < 2), so the claim requires CLOSED — but the
handler writes no CLOSED frame and registers the subscription live,
because the cancel loop clears `cancel` whenever the last query returned
fewer events than a filter's limit. -/
theorem c7_counterexample :
    (handleReqModel
        [ { id := [5], pubkey := [6], created_at := 10, kind := 1,
            tags := [], content := [], sig := [] } ] "s"
        [ { ids := [[5]], authors := [], kinds := [], since := none,
            til := none, tags := [], limit := some 2 } ]).frames
      = [Frame.event "s"
            { id := [5], pubkey := [6], created_at := 10, kind := 1,
              tags := [], content := [], sig := [] },
          Frame.eose "s"] ∧
      (handleReqModel
        [ { id := [5], pubkey := [6], created_at := 10, kind := 1,
            tags := [], content := [], sig := [] } ] "s"
        [ { ids := [[5]], authors := [], kinds := [], since := none,
            til := none, tags := [], limit := some 2 } ]).registered
      = some ("s",
          [ { ids := [[5]], authors := [], kinds := [], since := none,
              til := none, tags := [], limit := some 2 } ]) := by
  decide

/-- `S.Deliver` restricted to one connection (handleEvent.go:474): the
connection's subscriptions form a Go `map[string]*filters.T`
(handleEvent.go:359), and `range` order over a Go map is unspecified, so
one run of the fan-out is a function of the entry enumeration order the
runtime presents; `entries` is that order. -/
def deliverToConn (entries : List (String × List ReqFilter)) (ev : Event) :
    List (String × Event) :=
  (entries.filter fun e => matchesAny e.2 ev).map fun e => (e.1, ev)

/-- C8 counterexample.  Two subscriptions of one connection, both
matching the published event.  The two enumeration orders are
permutations of the same subscription state — both legal runs of a Go
map `range` — yet they deliver the matches in different orders, so the
order is not deterministic (and in particular not insertion order). -/
theorem c8_counterexample :
    ([("a", [{ ids := [], authors := [], kinds := [], since := none,
               til := none, tags := [], limit := none }]),
      ("b", [{ ids := [], authors := [], kinds := [], since := none,
               til := none, tags := [], limit := none }])] :
        List (String × List ReqFilter)).Perm
      [("b", [{ ids := [], authors := [], kinds := [], since := none,
                til := none, tags := [], limit := none }]),
       ("a", [{ ids := [], authors := [], kinds := [], since := none,
                til := none, tags := [], limit := none }])] ∧
    deliverToConn
        [("a", [{ ids := [], authors := [], kinds := [], since := none,
                  til := none, tags := [], limit := none }]),
         ("b", [{ ids := [], authors := [], kinds := [], since := none,
                  til := none, tags := [], limit := none }])]
        { id := [5], pubkey := [6], created_at := 10, kind := 1,
          tags := [], content := [], sig := [] }
      ≠ deliverToConn
        [("b", [{ ids := [], authors := [], kinds := [], since := none,
                  til := none, tags := [], limit := none }]),
         ("a", [{ ids := [], authors := [], kinds := [], since := none,
                  til := none, tags := [], limit := none }])]
        { id := [5], pubkey := [6], created_at := 10, kind := 1,
          tags := [], content := [], sig := [] } := by
  decide

/-- C8 (amended).  What IS deterministic about the fan-out: over any two
enumeration orders of the same subscription state the delivered frames
are the same up to permutation, and every subscription whose filter set
matches the event receives it. -/
theorem c8_deliver_set_deterministic (ev : Event)
    (o1 o2 : List (String × List ReqFilter)) (h : o1.Perm o2) :
    (deliverToConn o1 ev).Perm (deliverToConn o2 ev) ∧
      ∀ p ∈ o1, matchesAny p.2 ev = true → (p.1, ev) ∈ deliverToConn o1 ev := by
  constructor
  · exact (h.filter _).map _
  · intro p hp hm
    unfold deliverToConn
    exact List.mem_map.2 ⟨p, List.mem_filter.2 ⟨hp, hm⟩, rfl⟩

/-- Witness for the amended C8 at concrete subscription states. -/
theorem c8_deliver_set_deterministic_witness :
    (deliverToConn
        [("a", [{ ids := [], authors := [], kinds := [], since := none,
                  til := none, tags := [], limit := none }])]
        { id := [5], pubkey := [6], created_at := 10, kind := 1,
          tags := [], content := [], sig := [] }).Perm
      (deliverToConn
        [("a", [{ ids := [], authors := [], kinds := [], since := none,
                  til := none, tags := [], limit := none }])]
        { id := [5], pubkey := [6], created_at := 10, kind := 1,
          tags := [], content := [], sig := [] }) ∧
      ∀ p ∈ ([("a", [{ ids := [], authors := [], kinds := [], since := none,
                       til := none, tags := [], limit := none }])] :
          List (String × List ReqFilter)),
        matchesAny p.2
            { id := [5], pubkey := [6], created_at := 10, kind := 1,
              tags := [], content := [], sig := [] } = true →
        (p.1, ({ id := [5], pubkey := [6], created_at := 10, kind := 1,
                 tags := [], content := [], sig := [] } : Event)) ∈
          deliverToConn
            [("a", [{ ids := [], authors := [], kinds := [], since := none,
                      til := none, tags := [], limit := none }])]
            { id := [5], pubkey := [6], created_at := 10, kind := 1,
              tags := [], content := [], sig := [] } :=
  c8_deliver_set_deterministic _ _ _ (List.Perm.refl _)
